import Mathlib

/-!
Verification development for the batched GPU beam-search decoder of the
nmtpytorch excerpt (src/MMT/nmtpytorch/search.py).  The decoder's data flow
is embedded shallowly over lists: tensors become nested lists, in-place
tensor mutation becomes explicit state passing, scores are rationals, and
the external model adapters are an oracle producing per-step log-probability
matrices.  The vocabulary component lives outside the excerpt; per the
spec's fixture its special ids are pad=0, bos=1, eos=2, unk=3, matching the
literal 2 used by the source for end-of-sequence detection.
-/

namespace BeamSearch

/-- The large-negative sentinel used by the source for suppression and
end-token pinning (search.py line 46: inf = -1000). -/
def negInf : ℚ := -1000

/-- Modelled from the spec: padding token id of the external Vocabulary
(spec fixture pad:0). -/
def padId : Nat := 0

/-- Modelled from the spec: begin-of-sequence id of the external Vocabulary
(spec fixture bos:1); used by get_bos of the external model. -/
def bosId : Nat := 1

/-- Modelled from the spec: end-of-sequence id of the external Vocabulary
(spec fixture eos:2); the source additionally hardcodes the literal 2 in
its pinning and length logic. -/
def eosId : Nat := 2

/-- Modelled from the spec: unknown-token id of the external Vocabulary
(spec fixture unk:3). -/
def unkId : Nat := 3

/-- Strict priority order between candidate positions of a flat score list:
position j ranks ahead of position i when its score is larger, with ties
broken towards the smaller position.  This realises a deterministic model of
torch.topk(k, sorted=False, largest=True), whose tie order is unspecified. -/
def Beats (xs : List ℚ) (j i : Nat) : Prop :=
  xs.getD i 0 < xs.getD j 0 ∨ (xs.getD j 0 = xs.getD i 0 ∧ j < i)

instance (xs : List ℚ) (j i : Nat) : Decidable (Beats xs j i) := by
  unfold Beats; infer_instance

/-- Number of candidate positions ranking strictly ahead of position i. -/
def rank (xs : List ℚ) (i : Nat) : Nat :=
  ((Finset.range xs.length).filter (fun j => Beats xs j i)).card

/-- Positions of the k largest entries of xs (ties towards smaller index),
listed in increasing position order: the embedding of
torch.topk(k, sorted=False, largest=True) index output. -/
def topIdxs (k : Nat) (xs : List ℚ) : List Nat :=
  (List.range xs.length).filter (fun i => decide (rank xs i < k))

/-- Gather the sample axis (axis 1) of a [time, sample] matrix through the
index list idxs: the embedding of t[:, idxs]. -/
def tileMat (m : List (List α)) (idxs : List Nat) (d : α) : List (List α) :=
  m.map (fun row => idxs.map (fun ix => row.getD ix d))

/-- Embedding of tile_ctx_dict (search.py lines 9-15): for every modality
key, gather the tensor and the optional mask along the sample axis. -/
def tile_ctx_dict (ctx : List (κ × (List (List α) × Option (List (List Bool)))))
    (idxs : List Nat) (d : α) :
    List (κ × (List (List α) × Option (List (List Bool)))) :=
  ctx.map (fun kv =>
    (kv.1, (tileMat kv.2.1 idxs d, kv.2.2.map (fun m => tileMat m idxs false))))

/-- Static configuration of one beam_search call: beam width k, vocabulary
size V, maximum target length L, maximum batch size maxB (from the batch
sampler), the length-penalty exponent, and the unknown-suppression flag. -/
structure SP where
  k : Nat
  V : Nat
  L : Nat
  maxB : Nat
  alpha : Nat
  suppressUnk : Bool

/-- Mutable per-batch decoding state: the [L, B, k] beam tensor, the
cumulative scores nll, the flattened current tokens idxs, and the
active-index list tile. -/
structure St where
  beam : List (List (List Nat))
  nll : List (List ℚ)
  idxs : List Nat
  tile : List Nat

/-- The fully pinned log-probability row of a finished hypothesis: every
entry the sentinel except entry eos (=2), which becomes 0 (lines 133-135). -/
def pinnedRow (len : Nat) : List ℚ :=
  (List.replicate len negInf).set 2 0

/-- Embedding of the optional suppress_unk column fill (lines 123-124). -/
def applySuppress (b : Bool) (lp : List (List ℚ)) : List (List ℚ) :=
  if b then lp.map (fun row => row.set unkId negInf) else lp

/-- Embedding of end-token pinning (lines 126-135): every row whose current
token equals the literal 2 is replaced by the pinned row. -/
def pinEos (tokens : List Nat) (lp : List (List ℚ)) : List (List ℚ) :=
  (List.range lp.length).map (fun i =>
    if tokens.getD i 0 = 2 then pinnedRow (lp.getD i []).length else lp.getD i [])

/-- Score of flattened candidate f of sample s: running score of beam slot
f / V plus the (pinned) log-probability of token f % V, the embedding of
nll.unsqueeze(2).add(log_p.view(B, -1, V)).view(B, -1) (lines 142-144);
w is the current beam-axis width (1 at t=0, k afterwards). -/
def candVal (V w s : Nat) (nll : List (List ℚ)) (P : List (List ℚ)) (f : Nat) : ℚ :=
  (nll.getD s []).getD (f / V) 0 + (P.getD (s * w + f / V) []).getD (f % V) 0

/-- The flattened [w*V] candidate-score row of sample s. -/
def candRow (V w : Nat) (nll P : List (List ℚ)) (s : Nat) : List ℚ :=
  (List.range (w * V)).map (candVal V w s nll P)

/-- Embedding of ancestor/token decomposition of a flattened top-k index
(lines 146-148: pdxs = beam[t] / n_vocab; beam[t].remainder_(n_vocab)). -/
def resolveAncestor (V f : Nat) : Nat × Nat :=
  (f / V, f % V)

/-- The current beam-axis width of the score tensor: one column at t = 0,
k columns afterwards (the shapes noted at lines 114-116). -/
def curW (p : SP) (t : Nat) : Nat := if t = 0 then 1 else p.k

/-- The pinned (and optionally unk-suppressed) log-probability matrix
entering the score expansion of step t (lines 122-135). -/
def stepP (p : SP) (logp : List (List ℚ)) (st : St) : List (List ℚ) :=
  pinEos st.idxs (applySuppress p.suppressUnk logp)

/-- The flattened indices selected for sample s by the per-sample top-k of
this step (lines 142-144). -/
def stepSel (p : SP) (t : Nat) (logp : List (List ℚ)) (st : St) (s : Nat) :
    List Nat :=
  topIdxs p.k (candRow p.V (curW p t) st.nll (stepP p logp st) s)

/-- The new running scores: the per-sample top-k values (line 142). -/
def stepNll (p : SP) (B t : Nat) (logp : List (List ℚ)) (st : St) :
    List (List ℚ) :=
  (List.range B).map (fun s =>
    (stepSel p t logp st s).map (candVal p.V (curW p t) s st.nll (stepP p logp st)))

/-- The token ids recorded into beam row t (line 148: remainder by V). -/
def stepToks (p : SP) (B t : Nat) (logp : List (List ℚ)) (st : St) :
    List (List Nat) :=
  (List.range B).map (fun s => (stepSel p t logp st s).map (fun f => f % p.V))

/-- The ancestor beam slots (line 147: integer division by V). -/
def stepPdxs (p : SP) (B t : Nat) (logp : List (List ℚ)) (st : St) :
    List (List Nat) :=
  (List.range B).map (fun s => (stepSel p t logp st s).map (fun f => f / p.V))

/-- The new beam tensor: rows before t gathered through the ancestors
(line 157), row t holding the new tokens, later rows untouched. -/
def stepBeam (p : SP) (B t : Nat) (logp : List (List ℚ)) (st : St) :
    List (List (List Nat)) :=
  (List.range p.L).map (fun r =>
    let row := st.beam.getD r []
    if r < t then
      (List.range B).map (fun s =>
        ((stepPdxs p B t logp st).getD s []).map (fun a => (row.getD s []).getD a 0))
    else if r = t then stepToks p B t logp st else row)

/-- The new active-index list (line 153:
tile = pdxs.view(-1) + (nk_mask / k) * (k if t else 1)). -/
def stepTile (p : SP) (B t : Nat) (logp : List (List ℚ)) (st : St) : List Nat :=
  (List.range (B * p.k)).map (fun i =>
    (stepPdxs p B t logp st).flatten.getD i 0 + (i / p.k) * (if t = 0 then 1 else p.k))

/-- One iteration of the decode loop (search.py lines 106-157) minus the
early-exit test, acting on explicit state; logp is the summed ensemble
log-probability matrix produced by the external models for this step. -/
def stepOnce (p : SP) (B t : Nat) (logp : List (List ℚ)) (st : St) : St :=
  ⟨stepBeam p B t logp st, stepNll p B t logp st,
   (stepToks p B t logp st).flatten, stepTile p B t logp st⟩

/-- The step loop (lines 106-157) with explicit fuel; when useBreak is set,
the all-finished early exit of lines 127-130 is honoured (the loop stops as
soon as every one of the B*k current tokens equals 2), otherwise the loop
always runs to exhaustion. -/
def runSteps (p : SP) (oracle : Nat → List Nat → List (List ℚ)) (B : Nat)
    (useBreak : Bool) : Nat → Nat → St → St
  | _, 0, st => st
  | t, fuel + 1, st =>
    if useBreak ∧ 0 < st.idxs.count 2 ∧ st.idxs.count 2 = B * p.k then st
    else runSteps p oracle B useBreak (t + 1) fuel (stepOnce p B t (oracle t st.idxs) st)

/-- Embedding of the forced end row (line 160: beam[max_len-1] = eos). -/
def withEosRow (p : SP) (B : Nat) (beam : List (List (List Nat))) :
    List (List (List Nat)) :=
  beam.set (p.L - 1) (List.replicate B (List.replicate p.k eosId))

/-- Embedding of the per-slot content length (line 163:
beam.gt(2).float().sum(0).clamp(min=1)). -/
def contentLen (p : SP) (beam : List (List (List Nat))) (s j : Nat) : ℚ :=
  max 1 ((((List.range p.L).filter
    (fun r => decide (2 < ((beam.getD r []).getD s []).getD j 0))).length : ℚ))

/-- Embedding of the normalizing divisor (lines 165-166): Google length
penalty when the exponent is positive, else the raw content length. -/
def lpVal (p : SP) (beam : List (List (List Nat))) (s j : Nat) : ℚ :=
  if 0 < p.alpha then ((5 + contentLen p beam s j) ^ p.alpha) / (6 : ℚ) ^ p.alpha
  else contentLen p beam s j

/-- The length-normalized score used for final selection (line 169:
nll.div_(lp)). -/
def normScore (p : SP) (nll : List (List ℚ)) (beam : List (List (List Nat)))
    (s j : Nat) : ℚ :=
  (nll.getD s []).getD j 0 / lpVal p beam s j

/-- Embedding of the final per-sample arg-max slot (lines 169-170:
nll.div_(lp).topk(1, sorted=False, largest=True)[1]). -/
def bestSlot (p : SP) (nll : List (List ℚ)) (beam : List (List (List Nat)))
    (s : Nat) : Nat :=
  (topIdxs 1 ((List.range p.k).map (normScore p nll beam s))).headD 0

/-- The full token column of beam slot (s, j) (line 173). -/
def hypAt (p : SP) (beam : List (List (List Nat))) (s j : Nat) : List Nat :=
  (List.range p.L).map (fun r => ((beam.getD r []).getD s []).getD j 0)

/-- Modelled from the spec: the external Vocabulary operation
list_of_idxs_to_sents is missing from the excerpt; per the spec it decodes a
hypothesis by stopping at the end token, embedded as the longest initial
segment free of eos. -/
def sentOf (ids : List Nat) : List Nat :=
  ids.takeWhile (fun x => decide (x ≠ eosId))

/-- Post-loop extraction of one decoded hypothesis per sample of the batch
(search.py lines 159-174). -/
def finishBatch (p : SP) (B : Nat) (st : St) : List (List Nat) :=
  let beamF := withEosRow p B st.beam
  (List.range B).map (fun s => sentOf (hypAt p beamF s (bestSlot p st.nll beamF s)))

/-- Embedding of nll_storage.narrow(0, 0, batch.size).unsqueeze(1)
(line 91). -/
def initNll (B : Nat) (ns : List ℚ) : List (List ℚ) :=
  (ns.take B).map (fun x => [x])

/-- The final beam written back into the first B sample columns of the
preallocated storage, the untouched tail columns preserved. -/
def writeBack (p : SP) (B : Nat) (bs : List (List (List Nat)))
    (beamF : List (List (List Nat))) : List (List (List Nat)) :=
  (List.range p.L).map (fun r => (beamF.getD r []) ++ ((bs.getD r []).drop B))

/-- Decoding of one batch (the body of the loop at lines 80-174): zero the
narrowed beam view, seed scores from the score storage and tokens with bos,
run the step loop with the early exit, then extract results.  Returns the
per-sample results together with both storages. -/
def processBatch (p : SP) (oracle : Nat → List Nat → List (List ℚ)) (B : Nat)
    (bs : List (List (List Nat))) (ns : List ℚ) :
    List (List Nat) × List (List (List Nat)) × List ℚ :=
  let beam0 := List.replicate p.L (List.replicate B (List.replicate p.k 0))
  let st0 : St := ⟨beam0, initNll B ns, List.replicate B bosId, List.range B⟩
  let stF := runSteps p oracle B true 0 p.L st0
  (finishBatch p B stF, writeBack p B bs (withEosRow p B stF.beam), ns)

/-- One batch from the external batching collaborator: its sample count and
the summed ensemble log-probability oracle obtained from encoding it. -/
structure Batch where
  size : Nat
  oracle : Nat → List Nat → List (List ℚ)

/-- The preallocated beam storage (line 76), zeros of shape [L, maxB, k]. -/
def initBeamStorage (p : SP) : List (List (List Nat)) :=
  List.replicate p.L (List.replicate p.maxB (List.replicate p.k 0))

/-- The preallocated score storage (line 78), zeros of length maxB. -/
def initNllStorage (p : SP) : List ℚ :=
  List.replicate p.maxB 0

/-- The batch loop (lines 80-174): process batches sequentially, threading
both preallocated storages, concatenating the per-batch results. -/
def runBatches (p : SP) :
    List Batch → List (List (List Nat)) → List ℚ →
      List (List Nat) × List (List (List Nat)) × List ℚ
  | [], bs, ns => ([], bs, ns)
  | b :: rest, bs, ns =>
    let r := processBatch p b.oracle b.size bs ns
    let acc := runBatches p rest r.2.1 r.2.2
    (r.1 ++ acc.1, acc.2)

/-- Comparison of enumerated pairs by stored original index, the key
function of the final sorted(enumerate(orig_idxs), key=...) (line 178). -/
def sndLe (a b : Nat × Nat) : Prop := a.2 ≤ b.2

instance : DecidableRel sndLe := fun a b => Nat.decLe a.2 b.2

instance : IsTotal (Nat × Nat) sndLe := ⟨fun a b => Nat.le_total a.2 b.2⟩

instance : IsTrans (Nat × Nat) sndLe := ⟨fun _ _ _ h h' => le_trans h h'⟩

/-- Embedding of the original-order recovery (lines 177-179):
[results[i] for i, j in sorted(enumerate(orig_idxs), key=value)]. -/
def recoverOrder (res : List α) (origIdxs : List Nat) (d : α) : List α :=
  (List.insertionSort sndLe origIdxs.enum).map (fun pr => res.getD pr.1 d)

/-- Embedding of beam_search (lines 18-180) over the already-encoded batch
sequence: run all batches, then restore the original sample order when the
batch sampler reports that it reordered samples. -/
def beam_search (p : SP) (batches : List Batch) (storeIndices : Bool)
    (origIdxs : List Nat) : List (List Nat) :=
  let res := (runBatches p batches (initBeamStorage p) (initNllStorage p)).1
  if storeIndices then recoverOrder res origIdxs [] else res

/-- The slice of a model visible to the prologue of beam_search: only its
target vocabulary (abstracted to its size) is read there. -/
structure ModelA where
  trgVocabSize : Nat

/-- The runtime failures the embedded beam_search can surface, tagged by the
source location where the corresponding Python exception is raised. -/
inductive SearchErr where
  | emptyModelList : SearchErr
  | negativeBeamDim : SearchErr
  | beamRowOutOfRange : SearchErr
deriving DecidableEq

/-- The model-access part of the beam_search prologue (lines 50-73): its
only failure is the models[0] access (lines 53-56 and 62-67), which raises
an IndexError on an empty model list.  The later prologue step that can
also fail — the beam_storage allocation of line 76 when max_len is
negative — is modelled in beam_searchChecked, after this check, matching
the source order. -/
def precheckModels (models : List ModelA) : Except SearchErr ModelA :=
  match models with
  | [] => .error .emptyModelList
  | m :: _ => .ok m

/-- beam_search with its failure behaviour made explicit, taking the raw
(possibly negative) max_len argument.  The prologue runs first: the
models[0] access, then the beam_storage allocation
torch.zeros((max_len, max_batch_size, k)) of line 76, which raises a
generic negative-dimension RuntimeError when max_len is negative, whatever
the loader holds.  A zero max_len passes the whole prologue (a zero
dimension is legal there) and only fails once a batch is actually
processed, at the write to beam[max_len - 1] (line 160). -/
def beam_searchChecked (k V maxB alpha : Nat) (suppressUnk : Bool)
    (maxLen : Int) (models : List ModelA) (batches : List Batch)
    (storeIndices : Bool) (origIdxs : List Nat) :
    Except SearchErr (List (List Nat)) :=
  match precheckModels models with
  | .error e => .error e
  | .ok _ =>
    if maxLen < 0 then .error .negativeBeamDim
    else
      match batches with
      | [] => .ok (beam_search ⟨k, V, maxLen.toNat, maxB, alpha, suppressUnk⟩ []
          storeIndices origIdxs)
      | b :: rest =>
        if maxLen = 0 then .error .beamRowOutOfRange
        else .ok (beam_search ⟨k, V, maxLen.toNat, maxB, alpha, suppressUnk⟩
            (b :: rest) storeIndices origIdxs)

/-- Following the words of claim C6: the number of time positions holding a
token outside the special set (pad, bos, eos), clamped to a minimum of 1. -/
def specContentLen (p : SP) (beam : List (List (List Nat))) (s j : Nat) : ℚ :=
  max 1 ((((List.range p.L).filter (fun r =>
    decide (¬(((beam.getD r []).getD s []).getD j 0 = padId ∨
      ((beam.getD r []).getD s []).getD j 0 = bosId ∨
      ((beam.getD r []).getD s []).getD j 0 = eosId)))).length : ℚ))

/-- Following the words of claim C7: the normalizing divisor as a pure
function of the exponent and the content length. -/
def lengthDivisor (alpha : Nat) (len : ℚ) : ℚ :=
  if 0 < alpha then ((5 + len) ^ alpha) / (6 : ℚ) ^ alpha else len

/-- Invariant of a decode state in which every hypothesis of the batch has
finished: shapes are those of step t, every current token is the literal 2,
the current tokens are the flattening of the last written beam row, all
not-yet-written beam rows still hold the zeros of the batch start, and the
sentinel dominates every pairwise score gap. -/
def EosInv (p : SP) (B t : Nat) (st : St) : Prop :=
  1 ≤ t ∧ t ≤ p.L ∧
  st.beam.length = p.L ∧
  (∀ r, r < p.L → (st.beam.getD r []).length = B) ∧
  (∀ r s, r < p.L → s < B → ((st.beam.getD r []).getD s []).length = p.k) ∧
  st.nll.length = B ∧ (∀ rr ∈ st.nll, rr.length = p.k) ∧
  st.idxs = (st.beam.getD (t - 1) []).flatten ∧
  (∀ x ∈ st.idxs, x = 2) ∧
  st.idxs.length = B * p.k ∧
  (∀ r, t ≤ r → r < p.L → st.beam.getD r [] = List.replicate B (List.replicate p.k 0)) ∧
  (∀ s j j', s < B → j < p.k → j' < p.k →
    (st.nll.getD s []).getD j 0 - 1000 < (st.nll.getD s []).getD j' 0)

theorem getD_map_range (n : Nat) (f : Nat → α) (i : Nat) (d : α) :
    ((List.range n).map f).getD i d = if i < n then f i else d := by
  rcases Nat.lt_or_ge i n with h | h
  · rw [List.getD_eq_getElem _ _ (by simpa using h), List.getElem_map,
      List.getElem_range, if_pos h]
  · rw [if_neg (Nat.not_lt.mpr h), List.getD_eq_getElem?_getD,
      List.getElem?_eq_none (by simpa using h)]
    rfl

theorem range_map_getD {l : List α} {d : α} {n : Nat} (h : l.length = n) :
    (List.range n).map (fun i => l.getD i d) = l := by
  apply List.ext_getElem (by simp [h])
  intro i h1 h2
  rw [List.getElem_map, List.getElem_range, List.getD_eq_getElem _ _ h2]

theorem beats_irrefl (xs : List ℚ) (i : Nat) : ¬ Beats xs i i := by
  rintro (h | ⟨_, h⟩)
  · exact lt_irrefl _ h
  · exact Nat.lt_irrefl _ h

theorem beats_trans {xs : List ℚ} {a b c : Nat}
    (h1 : Beats xs a b) (h2 : Beats xs b c) : Beats xs a c := by
  rcases h1 with h1 | ⟨h1, h1'⟩ <;> rcases h2 with h2 | ⟨h2, h2'⟩
  · exact Or.inl (lt_trans h2 h1)
  · exact Or.inl (h2 ▸ h1)
  · exact Or.inl (h1 ▸ h2)
  · exact Or.inr ⟨h1.trans h2, Nat.lt_trans h1' h2'⟩

theorem beats_total {xs : List ℚ} {i j : Nat} (h : i ≠ j) :
    Beats xs i j ∨ Beats xs j i := by
  rcases lt_trichotomy (xs.getD i 0) (xs.getD j 0) with h1 | h1 | h1
  · exact Or.inr (Or.inl h1)
  · rcases Nat.lt_or_ge i j with h2 | h2
    · exact Or.inl (Or.inr ⟨h1, h2⟩)
    · exact Or.inr (Or.inr ⟨h1.symm, by omega⟩)
  · exact Or.inl (Or.inl h1)

theorem rank_lt_of_beats {xs : List ℚ} {i j : Nat} (hj : j < xs.length)
    (hb : Beats xs j i) : rank xs j < rank xs i := by
  apply Finset.card_lt_card
  rw [Finset.ssubset_iff_of_subset]
  · exact ⟨j, Finset.mem_filter.mpr ⟨Finset.mem_range.mpr hj, hb⟩,
      fun hjj => beats_irrefl xs j (Finset.mem_filter.mp hjj).2⟩
  · intro x hx
    have hx' := Finset.mem_filter.mp hx
    exact Finset.mem_filter.mpr ⟨hx'.1, beats_trans hx'.2 hb⟩

theorem rank_lt_length {xs : List ℚ} {i : Nat} (hi : i < xs.length) :
    rank xs i < xs.length := by
  have hsub : (Finset.range xs.length).filter (fun j => Beats xs j i) ⊆
      (Finset.range xs.length).erase i := by
    intro x hx
    rw [Finset.mem_erase]
    refine ⟨?_, (Finset.mem_filter.mp hx).1⟩
    rintro rfl
    exact beats_irrefl xs _ (Finset.mem_filter.mp hx).2
  have h1 := Finset.card_le_card hsub
  rw [Finset.card_erase_of_mem (Finset.mem_range.mpr hi), Finset.card_range] at h1
  unfold rank
  omega

theorem mem_topIdxs {k : Nat} {xs : List ℚ} {i : Nat} :
    i ∈ topIdxs k xs ↔ i < xs.length ∧ rank xs i < k := by
  unfold topIdxs
  simp [List.mem_filter, List.mem_range]

theorem rank_injOn (xs : List ℚ) :
    Set.InjOn (rank xs) (Finset.range xs.length) := by
  intro a ha b hb hab
  by_contra hne
  simp only [Finset.coe_range, Set.mem_Iio] at ha hb
  rcases beats_total hne with h | h
  · have := rank_lt_of_beats ha h
    omega
  · have := rank_lt_of_beats hb h
    omega

theorem length_filter_range (n : Nat) (P : Nat → Prop) [DecidablePred P] :
    ((List.range n).filter (fun i => decide (P i))).length =
      ((Finset.range n).filter P).card := by
  induction n with
  | zero => simp
  | succ n ih =>
    rw [List.range_succ, List.filter_append, List.length_append, ih,
      Finset.range_succ, Finset.filter_insert]
    by_cases h : P n
    · rw [if_pos h, Finset.card_insert_of_not_mem (by simp)]
      simp [h]
    · rw [if_neg h]
      simp [h]

theorem filter_range_lt_eq (k n : Nat) :
    (Finset.range n).filter (fun r => r < k) = Finset.range (min k n) := by
  ext x
  simp only [Finset.mem_filter, Finset.mem_range, lt_min_iff]
  omega

theorem card_rank_filter (k : Nat) (xs : List ℚ) :
    ((Finset.range xs.length).filter (fun i => rank xs i < k)).card =
      min k xs.length := by
  have hinj := rank_injOn xs
  have himg : (Finset.range xs.length).image (rank xs) = Finset.range xs.length := by
    apply Finset.eq_of_subset_of_card_le
    · intro x hx
      rcases Finset.mem_image.mp hx with ⟨a, ha, rfl⟩
      exact Finset.mem_range.mpr (rank_lt_length (Finset.mem_range.mp ha))
    · rw [Finset.card_image_of_injOn hinj, Finset.card_range]
  have himg2 : ((Finset.range xs.length).filter (fun i => rank xs i < k)).image (rank xs)
      = (Finset.range xs.length).filter (fun r => r < k) := by
    conv_rhs => rw [← himg]
    rw [Finset.filter_image]
  have hcard : (((Finset.range xs.length).filter (fun i => rank xs i < k)).image
      (rank xs)).card = ((Finset.range xs.length).filter (fun i => rank xs i < k)).card := by
    apply Finset.card_image_of_injOn
    apply hinj.mono
    intro x hx
    simpa using (Finset.mem_filter.mp hx).1
  rw [← hcard, himg2, filter_range_lt_eq, Finset.card_range]

theorem length_topIdxs (k : Nat) (xs : List ℚ) :
    (topIdxs k xs).length = min k xs.length := by
  unfold topIdxs
  rw [length_filter_range, card_rank_filter]

theorem not_mem_topIdxs_of_greater {k : Nat} {xs : List ℚ} {f : Nat}
    (S : Finset Nat) (hS : S ⊆ Finset.range xs.length) (hcard : k ≤ S.card)
    (hgt : ∀ j ∈ S, xs.getD f 0 < xs.getD j 0) :
    f ∉ topIdxs k xs := by
  intro hf
  have h1 := (mem_topIdxs.mp hf).2
  have hsub : S ⊆ (Finset.range xs.length).filter (fun j => Beats xs j f) := by
    intro j hj
    exact Finset.mem_filter.mpr ⟨hS hj, Or.inl (hgt j hj)⟩
  have h2 := Finset.card_le_card hsub
  unfold rank at h1
  omega

theorem length_flatten_uniform {ll : List (List α)} {k : Nat}
    (hrows : ∀ row ∈ ll, row.length = k) : ll.flatten.length = ll.length * k := by
  induction ll with
  | nil => simp
  | cons hd tl ih =>
    rw [List.flatten_cons, List.length_append, hrows hd (by simp),
      ih (fun r hr => hrows r (by simp [hr])), List.length_cons]
    ring

theorem flatten_getD_uniform {ll : List (List α)} {k : Nat} (hk : 0 < k)
    (hrows : ∀ row ∈ ll, row.length = k) {i : Nat} (hi : i < ll.length * k) (d : α) :
    ll.flatten.getD i d = (ll.getD (i / k) []).getD (i % k) d := by
  induction ll generalizing i with
  | nil => simp at hi
  | cons hd tl ih =>
    have hhd : hd.length = k := hrows hd (by simp)
    rcases Nat.lt_or_ge i k with h | h
    · rw [List.flatten_cons, List.getD_append _ _ _ _ (by omega),
        Nat.div_eq_of_lt h, Nat.mod_eq_of_lt h]
      rfl
    · rw [List.flatten_cons, List.getD_append_right _ _ _ _ (by omega), hhd,
        Nat.div_eq_sub_div hk h, Nat.mod_eq_sub_mod h, List.getD_cons_succ]
      apply ih (fun r hr => hrows r (by simp [hr]))
      have h2 : (tl.length + 1) * k = tl.length * k + k := by ring
      rw [List.length_cons, h2] at hi
      omega


theorem getD_map_lt (f : α → β) {l : List α} {i : Nat} (h : i < l.length)
    (d : β) (d' : α) : (l.map f).getD i d = f (l.getD i d') := by
  rw [List.getD_eq_getElem _ _ (by simpa using h), List.getElem_map,
    List.getD_eq_getElem _ _ h]

theorem tileMat_getD {m : List (List α)} {idxs : List Nat} {r j : Nat}
    (hj : j < idxs.length) (d : α) :
    ((tileMat m idxs d).getD r []).getD j d = (m.getD r []).getD (idxs.getD j 0) d := by
  unfold tileMat
  rcases Nat.lt_or_ge r m.length with h | h
  · rw [getD_map_lt _ h [] []]
    exact getD_map_lt _ hj d 0
  · have h1 : m.getD r [] = [] := by
      rw [List.getD_eq_getElem?_getD, List.getElem?_eq_none (by simpa using h)]
      rfl
    have h2 : (List.map (fun row => List.map (fun ix => row.getD ix d) idxs) m).getD r [] = [] := by
      rw [List.getD_eq_getElem?_getD, List.getElem?_eq_none (by simpa using h)]
      rfl
    rw [h1, h2]
    simp

/-- C6: the length the decoder computes for a beam slot, which the source
obtains as the count of tokens greater than 2 clamped below at 1, equals
the number of time positions holding a token outside the special set pad,
bos, eos, clamped to a minimum of 1; a slot whose column is entirely
special gets length exactly 1. -/
theorem c6_content_length (p : SP) (beam : List (List (List Nat))) (s j : Nat) :
    contentLen p beam s j = specContentLen p beam s j ∧
    ((∀ r, r < p.L → ((beam.getD r []).getD s []).getD j 0 ≤ 2) →
      contentLen p beam s j = 1) := by
  constructor
  · unfold contentLen specContentLen
    congr 3
    apply List.filter_congr
    intro r _
    have h : (2 < ((beam.getD r []).getD s []).getD j 0) ↔
        ¬(((beam.getD r []).getD s []).getD j 0 = padId ∨
          ((beam.getD r []).getD s []).getD j 0 = bosId ∨
          ((beam.getD r []).getD s []).getD j 0 = eosId) := by
      unfold padId bosId eosId
      omega
    simp only [decide_eq_decide]
    exact h
  · intro hall
    unfold contentLen
    have h : (List.range p.L).filter
        (fun r => decide (2 < ((beam.getD r []).getD s []).getD j 0)) = [] := by
      rw [List.filter_eq_nil_iff]
      intro r hr
      have := hall r (List.mem_range.mp hr)
      simp only [decide_eq_true_eq]
      omega
    rw [h]
    simp

/-- C6 witness: a concrete 3-step beam with two content tokens in slot
(0,0) and an all-special column in slot (0,1). -/
theorem c6_content_length_witness :
    (contentLen ⟨2, 5, 3, 4, 0, false⟩ [[[4, 2]], [[4, 1]], [[2, 2]]] 0 0
        = specContentLen ⟨2, 5, 3, 4, 0, false⟩ [[[4, 2]], [[4, 1]], [[2, 2]]] 0 0 ∧
      contentLen ⟨2, 5, 3, 4, 0, false⟩ [[[4, 2]], [[4, 1]], [[2, 2]]] 0 1 = 1) ∧
    contentLen ⟨2, 5, 3, 4, 0, false⟩ [[[4, 2]], [[4, 1]], [[2, 2]]] 0 0 = 2 :=
  ⟨⟨(c6_content_length ⟨2, 5, 3, 4, 0, false⟩ [[[4, 2]], [[4, 1]], [[2, 2]]] 0 0).1,
    (c6_content_length ⟨2, 5, 3, 4, 0, false⟩ [[[4, 2]], [[4, 1]], [[2, 2]]] 0 1).2
      (by decide)⟩, by decide⟩

/-- C7: the normalizing divisor the decoder applies before final selection
is, as a function of the content length, the length itself when the penalty
exponent is zero and ((5+len)^alpha)/(6^alpha) when it is positive; at
len = 5, alpha = 1 it equals 10/6. -/
theorem c7_length_penalty (p : SP) (beam : List (List (List Nat)))
    (s j : Nat) (len : ℚ) (a : Nat) (ha : 0 < a) :
    lpVal p beam s j = lengthDivisor p.alpha (contentLen p beam s j) ∧
    lengthDivisor 0 len = len ∧
    lengthDivisor a len = ((5 + len) ^ a) / (6 : ℚ) ^ a ∧
    lengthDivisor 1 5 = 10 / 6 := by
  refine ⟨rfl, by simp [lengthDivisor], by simp [lengthDivisor, ha], ?_⟩
  norm_num [lengthDivisor]

/-- C7 witness at alpha = 1, len = 5. -/
theorem c7_length_penalty_witness :
    0 < 1 ∧ lengthDivisor 1 (5 : ℚ) = ((5 + 5) ^ 1) / (6 : ℚ) ^ 1 :=
  ⟨Nat.one_pos,
    (c7_length_penalty ⟨1, 4, 1, 1, 0, false⟩ [] 0 0 5 1 Nat.one_pos).2.2.1⟩

/-- C9: the Context Tiler returns a new mapping with the same keys in which
every tensor column j along the sample axis equals input column idxs[j],
the mask (when present) is gathered the same way, and an absent mask stays
absent; the input itself is untouched (the embedding is pure, mirroring the
source which builds a fresh dict of freshly gathered tensors). -/
theorem c9_tile_ctx_dict (ctx : List (κ × (List (List α) × Option (List (List Bool)))))
    (idxs : List Nat) (d : α) (dk : κ) (e r j : Nat)
    (he : e < ctx.length) (hj : j < idxs.length) :
    (tile_ctx_dict ctx idxs d).map Prod.fst = ctx.map Prod.fst ∧
    (tile_ctx_dict ctx idxs d).length = ctx.length ∧
    (((tile_ctx_dict ctx idxs d).getD e (dk, ([], none))).2.1.getD r []).getD j d
      = ((ctx.getD e (dk, ([], none))).2.1.getD r []).getD (idxs.getD j 0) d ∧
    ((tile_ctx_dict ctx idxs d).getD e (dk, ([], none))).2.2
      = ((ctx.getD e (dk, ([], none))).2.2).map (fun m => tileMat m idxs false) ∧
    ((((tile_ctx_dict ctx idxs d).getD e (dk, ([], none))).2.2.getD []).getD r []).getD j false
      = (((ctx.getD e (dk, ([], none))).2.2.getD []).getD r []).getD (idxs.getD j 0) false := by
  have hentry : (tile_ctx_dict ctx idxs d).getD e (dk, ([], none))
      = ((ctx.getD e (dk, ([], none))).1,
         (tileMat (ctx.getD e (dk, ([], none))).2.1 idxs d,
          ((ctx.getD e (dk, ([], none))).2.2).map (fun m => tileMat m idxs false))) := by
    unfold tile_ctx_dict
    rw [getD_map_lt _ he _ (dk, ([], none))]
  refine ⟨?_, by simp [tile_ctx_dict], ?_, ?_, ?_⟩
  · unfold tile_ctx_dict
    rw [List.map_map]
    rfl
  · rw [hentry]
    exact tileMat_getD hj d
  · rw [hentry]
  · rw [hentry]
    rcases hm : (ctx.getD e (dk, ([], none))).2.2 with _ | m
    · rfl
    · simpa using tileMat_getD (m := m) hj false

/-- C9 witness: a two-key context over two samples, one key carrying a
mask and the other none, gathered through the index list [1, 0, 1]. -/
theorem c9_tile_ctx_dict_witness :
    (0 < ([(0, ([[10, 20]], some [[true, false]])), (1, ([[30, 40]], none))] :
        List (Nat × (List (List ℚ) × Option (List (List Bool))))).length ∧ 2 < 3) ∧
    ((tile_ctx_dict [(0, ([[10, 20]], some [[true, false]])), (1, ([[30, 40]], none))]
        [1, 0, 1] (0 : ℚ)).getD 0 (0, ([], none))).2.2
      = some (tileMat [[true, false]] [1, 0, 1] false) :=
  ⟨⟨by decide, by decide⟩, by
    have h := (c9_tile_ctx_dict
      [(0, ([[10, 20]], some [[true, false]])), (1, ([[30, 40]], none))]
      [1, 0, 1] (0 : ℚ) 0 0 0 2 (by decide) (by decide)).2.2.2.1
    simpa using h⟩

/-- C8 counterexample: a call violating the max_len >= 1 precondition (here
max_len = 0) with one incoming batch is not rejected at the start of
beam_search: the whole prologue — the models[0] access and the storage
allocation, to which a zero dimension is legal — succeeds on it, and the
failure only surfaces inside the processing of the first batch, at the
forced write to beam[max_len - 1]. -/
theorem c8_counterexample :
    precheckModels [⟨5⟩] = .ok ⟨5⟩ ∧
    beam_searchChecked 2 5 3 0 false 0 [⟨5⟩]
      [⟨1, fun _ toks => List.replicate toks.length [-9, -9, -2, -9, -1]⟩] false []
      = .error .beamRowOutOfRange :=
  ⟨rfl, rfl⟩

/-- C8 amended: beam_search performs no eager precondition validation with
a descriptive configuration error.  An empty model list fails immediately
through the models[0] vocabulary access of the prologue (a generic index
error); a negative max_len also fails in the prologue, but only as a
generic negative-dimension error at the beam_storage allocation of line 76,
whatever the loader holds; a zero max_len passes the whole prologue and is
only detected during batch processing (at the forced write to
beam[max_len-1]) once at least one batch arrives, and triggers nothing when
the loader is empty; a beam width exceeding the preallocated storage cannot
occur, since the storage is allocated from the requested width. -/
theorem c8_no_eager_validation (k V maxB alpha : Nat) (su : Bool)
    (mlNeg : Int) (m : ModelA) (models : List ModelA) (b : Batch)
    (batches bs2 : List Batch) (storeIndices : Bool) (origIdxs : List Nat)
    (hneg : mlNeg < 0) :
    beam_searchChecked k V maxB alpha su 0 [] (b :: batches) storeIndices origIdxs
      = .error .emptyModelList ∧
    precheckModels (m :: models) = .ok m ∧
    beam_searchChecked k V maxB alpha su mlNeg (m :: models) bs2 storeIndices origIdxs
      = .error .negativeBeamDim ∧
    beam_searchChecked k V maxB alpha su 0 (m :: models) (b :: batches)
        storeIndices origIdxs
      = .error .beamRowOutOfRange ∧
    beam_searchChecked k V maxB alpha su 0 (m :: models) [] storeIndices origIdxs
      = .ok (beam_search ⟨k, V, 0, maxB, alpha, su⟩ [] storeIndices origIdxs) := by
  refine ⟨rfl, rfl, ?_, rfl, rfl⟩
  unfold beam_searchChecked precheckModels
  simp [hneg]

/-- C8 witness for the amended statement at concrete configurations:
max_len = -1 fails in the prologue at the allocation even with an empty
loader, while max_len = 0 passes the prologue and fails inside the first
batch. -/
theorem c8_no_eager_validation_witness :
    ((-1 : Int) < 0) ∧
    beam_searchChecked 2 5 3 0 false (-1) [⟨5⟩, ⟨6⟩] [] false []
      = .error .negativeBeamDim ∧
    beam_searchChecked 2 5 3 0 false 0 [⟨5⟩, ⟨6⟩]
      [⟨1, fun _ _ => []⟩] false [] = .error .beamRowOutOfRange :=
  ⟨by decide,
    (c8_no_eager_validation 2 5 3 0 false (-1) ⟨5⟩ [⟨6⟩] ⟨1, fun _ _ => []⟩
      [] [] false [] (by decide)).2.2.1,
    (c8_no_eager_validation 2 5 3 0 false (-1) ⟨5⟩ [⟨6⟩] ⟨1, fun _ _ => []⟩
      [] [] false [] (by decide)).2.2.2.1⟩

theorem finishBatch_length (p : SP) (B : Nat) (st : St) :
    (finishBatch p B st).length = B := by
  unfold finishBatch
  simp

theorem runBatches_nll (p : SP) (l : List Batch) :
    ∀ bs ns, (runBatches p l bs ns).2.2 = ns := by
  induction l with
  | nil => intro bs ns; rfl
  | cons b rest ih =>
    intro bs ns
    show (runBatches p rest (processBatch p b.oracle b.size bs ns).2.1
      (processBatch p b.oracle b.size bs ns).2.2).2.2 = ns
    exact ih _ _

theorem runBatches_length (p : SP) (l : List Batch) :
    ∀ bs ns, (runBatches p l bs ns).1.length = (l.map Batch.size).sum := by
  induction l with
  | nil => intro bs ns; simp [runBatches]
  | cons b rest ih =>
    intro bs ns
    show ((processBatch p b.oracle b.size bs ns).1 ++ _).length = _
    rw [List.length_append, ih]
    show (finishBatch p b.size _).length + _ = _
    rw [finishBatch_length]
    simp

/-- C10: batches are decoupled despite storage reuse: the per-batch results
never depend on the incoming contents of the preallocated beam storage
(its narrowed view is zeroed on entry), the score storage is returned
untouched by every single batch and hence by every batch sequence, and with
the zero-initialised score storage every batch starts from running scores
that are exactly zero. -/
theorem c10_batch_independence (p : SP) (oracle : Nat → List Nat → List (List ℚ))
    (B m : Nat) (bs₁ bs₂ : List (List (List Nat))) (ns : List ℚ)
    (batches : List Batch) (hB : B ≤ m) :
    (processBatch p oracle B bs₁ ns).1 = (processBatch p oracle B bs₂ ns).1 ∧
    (processBatch p oracle B bs₁ ns).2.2 = ns ∧
    (runBatches p batches bs₁ ns).2.2 = ns ∧
    initNll B (List.replicate m 0) = List.replicate B [(0 : ℚ)] := by
  refine ⟨rfl, rfl, runBatches_nll p batches bs₁ ns, ?_⟩
  unfold initNll
  rw [List.take_replicate, Nat.min_eq_left hB, List.map_replicate]

/-- C10 witness at a concrete configuration. -/
theorem c10_batch_independence_witness :
    1 ≤ 2 ∧
    initNll 1 (List.replicate 2 0) = List.replicate 1 [(0 : ℚ)] :=
  ⟨by decide,
    (c10_batch_independence ⟨1, 3, 1, 2, 0, false⟩ (fun _ _ => []) 1 2 [] []
      (List.replicate 2 0) [] (by decide)).2.2.2⟩

theorem sorted_enum_snd {σ : List Nat} {n : Nat} (hperm : σ.Perm (List.range n)) :
    (List.insertionSort sndLe σ.enum).map Prod.snd = List.range n := by
  have h1 := List.perm_insertionSort sndLe σ.enum
  have h2 : ((List.insertionSort sndLe σ.enum).map Prod.snd).Perm (List.range n) := by
    have h3 := h1.map Prod.snd
    rw [List.enum_map_snd] at h3
    exact h3.trans hperm
  have h3 : List.Sorted (· ≤ ·) ((List.insertionSort sndLe σ.enum).map Prod.snd) :=
    (List.pairwise_map).mpr (List.sorted_insertionSort sndLe σ.enum)
  exact List.eq_of_perm_of_sorted h2 h3 ((List.pairwise_lt_range n).imp (fun h => le_of_lt h))

theorem recoverOrder_length (res : List α) (σ : List Nat) (d : α) :
    (recoverOrder res σ d).length = σ.length := by
  unfold recoverOrder
  rw [List.length_map, (List.perm_insertionSort sndLe σ.enum).length_eq,
    List.enum_length]

theorem recoverOrder_getD {res : List α} {σ : List Nat} {n : Nat} (d : α)
    (hperm : σ.Perm (List.range n)) {i : Nat} (hi : i < n) :
    (recoverOrder res σ d).getD (σ.getD i 0) d = res.getD i d := by
  have hlenσ : σ.length = n := by rw [hperm.length_eq, List.length_range]
  have hnd : σ.Nodup := hperm.nodup_iff.mpr (List.nodup_range n)
  have hmap := sorted_enum_snd hperm
  have hSlen : (List.insertionSort sndLe σ.enum).length = n := by
    have h4 := congrArg List.length hmap
    simpa using h4
  have hv : σ.getD i 0 < n := by
    have hmem : σ.getD i 0 ∈ σ := by
      rw [List.getD_eq_getElem _ _ (by omega)]
      exact List.getElem_mem _
    have h5 := hperm.mem_iff.mp hmem
    simpa using h5
  have hSv2 : ((List.insertionSort sndLe σ.enum).getD (σ.getD i 0) (0, 0)).2
      = σ.getD i 0 := by
    have h5 : (((List.insertionSort sndLe σ.enum).map Prod.snd).getD (σ.getD i 0) 0)
        = σ.getD i 0 := by
      rw [hmap, List.getD_eq_getElem _ _ (by simpa using hv), List.getElem_range]
    rw [getD_map_lt Prod.snd (by omega) 0 (0, 0)] at h5
    exact h5
  have hmemS : (List.insertionSort sndLe σ.enum).getD (σ.getD i 0) (0, 0)
      ∈ List.insertionSort sndLe σ.enum := by
    rw [List.getD_eq_getElem _ _ (by omega)]
    exact List.getElem_mem _
  have hmemE := (List.perm_insertionSort sndLe σ.enum).mem_iff.mp hmemS
  have hget : σ[((List.insertionSort sndLe σ.enum).getD (σ.getD i 0) (0, 0)).1]?
      = some (σ.getD i 0) := by
    have h6 := List.mem_enum_iff_getElem?.mp hmemE
    rw [hSv2] at h6
    exact h6
  obtain ⟨hlt1, hEq1⟩ := List.getElem?_eq_some_iff.mp hget
  have hilen : i < σ.length := by omega
  have hEq2 : σ[i] = σ.getD i 0 :=
    (List.getD_eq_getElem _ _ hilen).symm
  have hidx : ((List.insertionSort sndLe σ.enum).getD (σ.getD i 0) (0, 0)).1 = i :=
    (hnd.getElem_inj_iff).mp (hEq1.trans hEq2.symm)
  unfold recoverOrder
  rw [getD_map_lt _ (by omega) d (0, 0), hidx]

/-- C1: beam_search yields exactly one decoded hypothesis per input sample:
the plain output has length equal to the sum of the batch sizes, and when
the batch sampler reports a reordering through orig_idxs, the returned list
still has that length and carries the hypothesis of processed sample i at
original position orig_idxs[i] — i.e. the inverse of the reordering
permutation is applied to the accumulated per-batch results. -/
theorem c1_output_count_and_order (p : SP) (batches : List Batch)
    (origIdxs : List Nat) (i : Nat)
    (hperm : origIdxs.Perm (List.range ((batches.map Batch.size).sum)))
    (hi : i < (batches.map Batch.size).sum) :
    (beam_search p batches false origIdxs).length = (batches.map Batch.size).sum ∧
    (beam_search p batches true origIdxs).length = (batches.map Batch.size).sum ∧
    (beam_search p batches true origIdxs).getD (origIdxs.getD i 0) []
      = (beam_search p batches false origIdxs).getD i [] := by
  refine ⟨runBatches_length p batches _ _, ?_, ?_⟩
  · show (recoverOrder _ origIdxs []).length = _
    rw [recoverOrder_length, hperm.length_eq, List.length_range]
  · exact recoverOrder_getD [] hperm hi

/-- C1 witness: two one-sample batches processed in swapped order, with
orig_idxs = [1, 0]; the theorem at i = 0 places the first processed result
at original position 1. -/
theorem c1_output_count_and_order_witness :
    (([1, 0] : List Nat).Perm (List.range 2) ∧ 0 < 2) ∧
    (beam_search ⟨1, 3, 1, 2, 0, false⟩
      [⟨1, fun _ _ => [[0, 0, 0]]⟩, ⟨1, fun _ _ => [[0, 0, -1]]⟩] true [1, 0]).length = 2 :=
  ⟨⟨by decide, by decide⟩,
    (c1_output_count_and_order ⟨1, 3, 1, 2, 0, false⟩
      [⟨1, fun _ _ => [[0, 0, 0]]⟩, ⟨1, fun _ _ => [[0, 0, -1]]⟩] [1, 0] 0
      (by decide) (by decide)).2.1⟩

theorem stepSel_length (p : SP) (t : Nat) (logp : List (List ℚ)) (st : St) (s : Nat) :
    (stepSel p t logp st s).length = min p.k (curW p t * p.V) := by
  unfold stepSel
  rw [length_topIdxs]
  simp [candRow]

theorem stepSel_getD_lt {p : SP} {t : Nat} {logp : List (List ℚ)} {st : St}
    {s m : Nat} (hm : m < (stepSel p t logp st s).length) :
    (stepSel p t logp st s).getD m 0 < curW p t * p.V := by
  have hfmem : (stepSel p t logp st s).getD m 0 ∈ stepSel p t logp st s := by
    rw [List.getD_eq_getElem _ _ hm]
    exact List.getElem_mem _
  unfold stepSel at hfmem
  have h := (mem_topIdxs.mp hfmem).1
  simpa [candRow] using h

theorem stepBeam_getD_rowt {p : SP} {B t : Nat} {logp : List (List ℚ)} {st : St}
    (ht : t < p.L) :
    (stepBeam p B t logp st).getD t [] = stepToks p B t logp st := by
  unfold stepBeam
  rw [getD_map_range, if_pos ht]
  simp

theorem stepPdxs_getD {p : SP} {B t : Nat} {logp : List (List ℚ)} {st : St}
    {s : Nat} (hs : s < B) :
    (stepPdxs p B t logp st).getD s []
      = (stepSel p t logp st s).map (fun f => f / p.V) := by
  unfold stepPdxs
  rw [getD_map_range, if_pos hs]

/-- C2: the new active-index list computed by a decode step assigns slot i
the value pdxs[i] + floor(i/k) * (1 at t=0, k later); consequently at t=0
slot i reads decoder-state row floor(i/k) (each sample repeated k times),
and for t>0 it reads ancestor + floor(i/k)*k where the ancestor is the
beam slot resolved by top-k inside sample floor(i/k)'s own k-sized block
(in particular the ancestor is smaller than k). -/
theorem c2_tile_formula (p : SP) (B t : Nat) (logp : List (List ℚ)) (st : St)
    (i : Nat) (hk : 0 < p.k) (hV : 0 < p.V) (hkV : p.k ≤ curW p t * p.V)
    (hi : i < B * p.k) :
    (stepOnce p B t logp st).tile.getD i 0
      = ((stepPdxs p B t logp st).getD (i / p.k) []).getD (i % p.k) 0
        + (i / p.k) * (if t = 0 then 1 else p.k) ∧
    (t = 0 → (stepOnce p B t logp st).tile.getD i 0 = i / p.k) ∧
    (t ≠ 0 → (stepOnce p B t logp st).tile.getD i 0
        = (stepSel p t logp st (i / p.k)).getD (i % p.k) 0 / p.V + (i / p.k) * p.k
      ∧ (stepSel p t logp st (i / p.k)).getD (i % p.k) 0 / p.V < p.k) := by
  have hrows : ∀ row ∈ stepPdxs p B t logp st, row.length = p.k := by
    intro row hrow
    unfold stepPdxs at hrow
    rcases List.mem_map.mp hrow with ⟨s, _, rfl⟩
    rw [List.length_map, stepSel_length, Nat.min_eq_left hkV]
  have hlen : (stepPdxs p B t logp st).length = B := by
    unfold stepPdxs
    simp
  have hflat : (stepPdxs p B t logp st).flatten.getD i 0
      = ((stepPdxs p B t logp st).getD (i / p.k) []).getD (i % p.k) 0 :=
    flatten_getD_uniform hk hrows (by rw [hlen]; exact hi) 0
  have htile : (stepOnce p B t logp st).tile.getD i 0
      = (stepPdxs p B t logp st).flatten.getD i 0
        + (i / p.k) * (if t = 0 then 1 else p.k) := by
    show (stepTile p B t logp st).getD i 0 = _
    unfold stepTile
    rw [getD_map_range, if_pos hi]
  have hsB : i / p.k < B := (Nat.div_lt_iff_lt_mul hk).mpr hi
  have hmk : i % p.k < (stepSel p t logp st (i / p.k)).length := by
    rw [stepSel_length, Nat.min_eq_left hkV]
    exact Nat.mod_lt _ hk
  have hentry : ((stepPdxs p B t logp st).getD (i / p.k) []).getD (i % p.k) 0
      = (stepSel p t logp st (i / p.k)).getD (i % p.k) 0 / p.V := by
    rw [stepPdxs_getD hsB, getD_map_lt _ hmk 0 0]
  have hflt := stepSel_getD_lt hmk
  refine ⟨htile.trans (by rw [hflat]), ?_, ?_⟩
  · intro h0
    subst h0
    rw [htile, hflat, hentry, if_pos rfl, Nat.mul_one]
    have hlt : (stepSel p 0 logp st (i / p.k)).getD (i % p.k) 0 < p.V := by
      simpa [curW] using hflt
    rw [Nat.div_eq_of_lt hlt, Nat.zero_add]
  · intro hne
    have hltkV : (stepSel p t logp st (i / p.k)).getD (i % p.k) 0 < p.k * p.V := by
      simpa [curW, hne] using hflt
    constructor
    · rw [htile, hflat, hentry, if_neg hne]
    · exact (Nat.div_lt_iff_lt_mul hV).mpr hltkV

/-- C2 witness at t = 1 on a one-sample, two-beam state. -/
theorem c2_tile_formula_witness :
    (0 < 2 ∧ 0 < 3 ∧ 2 ≤ curW ⟨2, 3, 2, 1, 0, false⟩ 1 * 3 ∧ 1 < 1 * 2) ∧
    (stepOnce ⟨2, 3, 2, 1, 0, false⟩ 1 1 [[0, 0, -1], [0, -2, -3]]
        ⟨[[[1, 2]], [[0, 0]]], [[0, -5]], [1, 2], [0, 1]⟩).tile.getD 1 0
      = (stepSel ⟨2, 3, 2, 1, 0, false⟩ 1 [[0, 0, -1], [0, -2, -3]]
          ⟨[[[1, 2]], [[0, 0]]], [[0, -5]], [1, 2], [0, 1]⟩ (1 / 2)).getD (1 % 2) 0 / 3
        + (1 / 2) * 2 :=
  ⟨⟨by decide, by decide, by decide, by decide⟩,
    ((c2_tile_formula ⟨2, 3, 2, 1, 0, false⟩ 1 1 [[0, 0, -1], [0, -2, -3]]
      ⟨[[[1, 2]], [[0, 0]]], [[0, -5]], [1, 2], [0, 1]⟩ 1
      (by decide) (by decide) (by decide) (by decide)).2.2 (by decide)).1⟩

/-- C3: every flattened top-k index f selected over the [B, w*V] score
matrix decomposes as ancestor = f div V and token = f mod V with
ancestor * V + token = f; the token is what a decode step records into beam
row t, and every earlier beam row is gathered through the ancestor. -/
theorem c3_ancestor_decomposition (p : SP) (B t s m r : Nat)
    (logp : List (List ℚ)) (st : St) (hV : 0 < p.V) (hs : s < B) (ht : t < p.L)
    (hr : r < t) (hm : m < (stepSel p t logp st s).length) :
    (resolveAncestor p.V ((stepSel p t logp st s).getD m 0)).1 * p.V
        + (resolveAncestor p.V ((stepSel p t logp st s).getD m 0)).2
      = (stepSel p t logp st s).getD m 0 ∧
    (((stepOnce p B t logp st).beam.getD t []).getD s []).getD m 0
      = (resolveAncestor p.V ((stepSel p t logp st s).getD m 0)).2 ∧
    (((stepOnce p B t logp st).beam.getD r []).getD s []).getD m 0
      = ((st.beam.getD r []).getD s []).getD
          ((resolveAncestor p.V ((stepSel p t logp st s).getD m 0)).1) 0 := by
  refine ⟨?_, ?_, ?_⟩
  · show (stepSel p t logp st s).getD m 0 / p.V * p.V
        + (stepSel p t logp st s).getD m 0 % p.V = (stepSel p t logp st s).getD m 0
    rw [Nat.mul_comm]
    exact Nat.div_add_mod _ p.V
  · show (((stepBeam p B t logp st).getD t []).getD s []).getD m 0 = _
    rw [stepBeam_getD_rowt ht]
    unfold stepToks
    rw [getD_map_range, if_pos hs, getD_map_lt _ hm 0 0]
    rfl
  · show (((stepBeam p B t logp st).getD r []).getD s []).getD m 0 = _
    unfold stepBeam
    rw [getD_map_range, if_pos (by omega : r < p.L)]
    simp only [if_pos hr]
    rw [getD_map_range, if_pos hs, stepPdxs_getD hs,
      getD_map_lt _ (by simpa using hm) 0 0,
      getD_map_lt _ hm 0 0]
    rfl

/-- C3 witness at t = 1, r = 0 on a one-sample, one-beam state. -/
theorem c3_ancestor_decomposition_witness :
    (0 < 2 ∧ 0 < 1 ∧ 1 < 2 ∧ 0 < 1 ∧
      0 < (stepSel ⟨1, 2, 2, 1, 0, false⟩ 1 [[0, -1]]
        ⟨[[[1]], [[0]]], [[0]], [1], [0]⟩ 0).length) ∧
    (((stepOnce ⟨1, 2, 2, 1, 0, false⟩ 1 1 [[0, -1]]
        ⟨[[[1]], [[0]]], [[0]], [1], [0]⟩).beam.getD 1 []).getD 0 []).getD 0 0
      = (resolveAncestor 2 ((stepSel ⟨1, 2, 2, 1, 0, false⟩ 1 [[0, -1]]
          ⟨[[[1]], [[0]]], [[0]], [1], [0]⟩ 0).getD 0 0)).2 :=
  ⟨⟨by decide, by decide, by decide, by decide,
      by rw [stepSel_length]; decide⟩,
    (c3_ancestor_decomposition ⟨1, 2, 2, 1, 0, false⟩ 1 1 0 0 0 [[0, -1]]
      ⟨[[[1]], [[0]]], [[0]], [1], [0]⟩
      (by decide) (by decide) (by decide) (by decide)
      (by rw [stepSel_length]; decide)).2.1⟩

theorem applySuppress_length (b : Bool) (lp : List (List ℚ)) :
    (applySuppress b lp).length = lp.length := by
  unfold applySuppress
  split <;> simp

theorem applySuppress_getD_length (b : Bool) (lp : List (List ℚ)) (i : Nat) :
    ((applySuppress b lp).getD i []).length = (lp.getD i []).length := by
  unfold applySuppress
  split
  · rcases Nat.lt_or_ge i lp.length with h | h
    · rw [getD_map_lt _ h [] []]
      simp
    · rw [List.getD_eq_getElem?_getD, List.getElem?_eq_none (by simpa using h),
        List.getD_eq_getElem?_getD lp, List.getElem?_eq_none (by simpa using h)]
  · rfl

theorem stepP_length (p : SP) (logp : List (List ℚ)) (st : St) :
    (stepP p logp st).length = logp.length := by
  unfold stepP pinEos
  rw [List.length_map, List.length_range, applySuppress_length]

theorem stepP_getD_finished {p : SP} {logp : List (List ℚ)} {st : St} {i : Nat}
    (hi : i < logp.length) (hfin : st.idxs.getD i 0 = 2) :
    (stepP p logp st).getD i [] = pinnedRow ((logp.getD i []).length) := by
  unfold stepP pinEos
  rw [getD_map_range, if_pos (by rw [applySuppress_length]; exact hi), if_pos hfin,
    applySuppress_getD_length]

theorem pinnedRow_getD {len v : Nat} (hv : v < len) (h2 : 2 < len) :
    (pinnedRow len).getD v 0 = if v = 2 then 0 else negInf := by
  unfold pinnedRow
  by_cases h : v = 2
  · subst h
    rw [if_pos rfl, List.getD_eq_getElem _ _ (by simpa using hv)]
    exact List.getElem_set_self (by simpa using hv)
  · rw [if_neg h, List.getD_eq_getElem _ _ (by simpa using hv),
      List.getElem_set_ne (by omega) _, List.getElem_replicate]

theorem candRow_getD {V w s : Nat} {nll P : List (List ℚ)} {f : Nat}
    (hf : f < w * V) :
    (candRow V w nll P s).getD f 0 = candVal V w s nll P f := by
  unfold candRow
  rw [getD_map_range, if_pos hf]

theorem getD_length_of_forall {lp : List (List ℚ)} {V i : Nat}
    (hrow : ∀ rr ∈ lp, rr.length = V) (hi : i < lp.length) :
    (lp.getD i []).length = V := by
  apply hrow
  rw [List.getD_eq_getElem _ _ hi]
  exact List.getElem_mem _

/-- C4: end-token pinning and its consequence.  For a beam slot (s, j)
whose current token is the end id 2, the pinned log-probability row the
step uses is the sentinel everywhere except entry 2, which is 0; and — as
long as the sentinel dominates, i.e. every slot offers some candidate above
the finished slot's score minus 1000 — every new slot that top-k resolves
to ancestor j records the end token again and carries the ancestor's score
increased by exactly 0.  Applied at each later step this keeps the
hypothesis pinned on the end token with an unchanged score. -/
theorem c4_eos_pinning (p : SP) (B t s j m v : Nat) (logp : List (List ℚ))
    (st : St) (ht : t ≠ 0) (htL : t < p.L) (hV : 3 ≤ p.V) (hs : s < B)
    (hj : j < p.k) (hv : v < p.V)
    (hlplen : logp.length = B * p.k)
    (hlprow : ∀ rr ∈ logp, rr.length = p.V)
    (hfin : st.idxs.getD (s * p.k + j) 0 = 2)
    (hm : m < (stepSel p t logp st s).length)
    (hanc : (stepSel p t logp st s).getD m 0 / p.V = j)
    (hdom : ∀ j', j' < p.k → ∃ v', v' < p.V ∧
      (st.nll.getD s []).getD j 0 - 1000
        < (st.nll.getD s []).getD j' 0
          + ((stepP p logp st).getD (s * p.k + j') []).getD v' 0) :
    ((stepP p logp st).getD (s * p.k + j) []).getD v 0
      = (if v = 2 then 0 else negInf) ∧
    (((stepOnce p B t logp st).beam.getD t []).getD s []).getD m 0 = 2 ∧
    ((stepOnce p B t logp st).nll.getD s []).getD m 0
      = (st.nll.getD s []).getD j 0 := by
  have hV0 : 0 < p.V := by omega
  have hidx : ∀ j', j' < p.k → s * p.k + j' < logp.length := by
    intro j' hj'
    have h1 : (s + 1) * p.k ≤ B * p.k := Nat.mul_le_mul_right _ (by omega)
    have h2 : s * p.k + p.k = (s + 1) * p.k := by ring
    omega
  have hPfin : (stepP p logp st).getD (s * p.k + j) [] = pinnedRow p.V := by
    rw [stepP_getD_finished (hidx j hj) hfin, getD_length_of_forall hlprow (hidx j hj)]
  have hw : curW p t = p.k := by
    unfold curW
    rw [if_neg ht]
  have hfmem : (stepSel p t logp st s).getD m 0 ∈ stepSel p t logp st s := by
    rw [List.getD_eq_getElem _ _ hm]
    exact List.getElem_mem _
  have hflt : (stepSel p t logp st s).getD m 0 < p.k * p.V := by
    have h3 := stepSel_getD_lt hm
    rwa [hw] at h3
  have hxlen : (candRow p.V (curW p t) st.nll (stepP p logp st) s).length
      = p.k * p.V := by
    unfold candRow
    rw [hw]
    simp
  have hfval : (candRow p.V (curW p t) st.nll (stepP p logp st) s).getD
      ((stepSel p t logp st s).getD m 0) 0
      = (st.nll.getD s []).getD j 0
        + (pinnedRow p.V).getD ((stepSel p t logp st s).getD m 0 % p.V) 0 := by
    rw [candRow_getD (by rw [hw]; exact hflt)]
    unfold candVal
    rw [hanc, hw, hPfin]
  have htok : (stepSel p t logp st s).getD m 0 % p.V = 2 := by
    by_contra hne
    have hdom' : ∀ j', ∃ v', j' < p.k → v' < p.V ∧
        (st.nll.getD s []).getD j 0 - 1000
          < (st.nll.getD s []).getD j' 0
            + ((stepP p logp st).getD (s * p.k + j') []).getD v' 0 := by
      intro j'
      by_cases h : j' < p.k
      · exact ⟨(hdom j' h).choose, fun _ => (hdom j' h).choose_spec⟩
      · exact ⟨0, fun hc => absurd hc h⟩
    choose g hg using hdom'
    have hgdiv : ∀ c, c < p.k → (c * p.V + g c) / p.V = c := by
      intro c hc
      rw [Nat.mul_comm c p.V, Nat.mul_add_div hV0,
        Nat.div_eq_of_lt (hg c hc).1, Nat.add_zero]
    have hfvalne : (candRow p.V (curW p t) st.nll (stepP p logp st) s).getD
        ((stepSel p t logp st s).getD m 0) 0
        = (st.nll.getD s []).getD j 0 - 1000 := by
      rw [hfval, pinnedRow_getD (Nat.mod_lt _ hV0) (by omega), if_neg hne]
      unfold negInf
      ring
    have hnotmem : (stepSel p t logp st s).getD m 0
        ∉ topIdxs p.k (candRow p.V (curW p t) st.nll (stepP p logp st) s) := by
      apply not_mem_topIdxs_of_greater ((Finset.range p.k).image (fun c => c * p.V + g c))
      · intro x hx
        rcases Finset.mem_image.mp hx with ⟨c, hc, rfl⟩
        rw [Finset.mem_range] at hc
        rw [hxlen]
        rw [Finset.mem_range]
        have h4 : c * p.V + g c < c * p.V + p.V := by
          have := (hg c hc).1
          omega
        have h5 : c * p.V + p.V = (c + 1) * p.V := by ring
        have h6 : (c + 1) * p.V ≤ p.k * p.V := Nat.mul_le_mul_right _ (by omega)
        omega
      · rw [Finset.card_image_of_injOn, Finset.card_range]
        intro a ha b hb hab
        simp only [Finset.coe_range, Set.mem_Iio] at ha hb
        have h7 := hgdiv a ha
        have h8 := hgdiv b hb
        have hab' : a * p.V + g a = b * p.V + g b := hab
        rw [hab'] at h7
        omega
      · intro x hx
        rcases Finset.mem_image.mp hx with ⟨c, hc, rfl⟩
        rw [Finset.mem_range] at hc
        rw [hfvalne, candRow_getD]
        · unfold candVal
          rw [hw, hgdiv c hc]
          have h9 : (c * p.V + g c) % p.V = g c := by
            rw [Nat.mul_comm c p.V, Nat.mul_add_mod, Nat.mod_eq_of_lt (hg c hc).1]
          rw [h9]
          exact (hg c hc).2
        · rw [hw]
          have h4 : c * p.V + g c < c * p.V + p.V := by
            have := (hg c hc).1
            omega
          have h5 : c * p.V + p.V = (c + 1) * p.V := by ring
          have h6 : (c + 1) * p.V ≤ p.k * p.V := Nat.mul_le_mul_right _ (by omega)
          omega
    exact hnotmem hfmem
  refine ⟨?_, ?_, ?_⟩
  · rw [hPfin, pinnedRow_getD hv (by omega)]
  · show (((stepBeam p B t logp st).getD t []).getD s []).getD m 0 = 2
    rw [stepBeam_getD_rowt htL]
    unfold stepToks
    rw [getD_map_range, if_pos hs, getD_map_lt _ hm 0 0]
    exact htok
  · show ((stepNll p B t logp st).getD s []).getD m 0 = _
    unfold stepNll
    rw [getD_map_range, if_pos hs, getD_map_lt _ hm 0 0]
    show candVal p.V (curW p t) s st.nll (stepP p logp st)
      ((stepSel p t logp st s).getD m 0) = _
    unfold candVal
    rw [htok, hanc, hw, hPfin, pinnedRow_getD (by omega) (by omega), if_pos rfl,
      add_zero]

theorem getD_set_self {l : List α} {n : Nat} (h : n < l.length) (a d : α) :
    (l.set n a).getD n d = a := by
  rw [List.getD_eq_getElem _ _ (by simpa using h)]
  exact List.getElem_set_self (by simpa using h)

theorem getD_set_ne' {l : List α} {n m : Nat} (h : n ≠ m) (a : α) (d : α) :
    (l.set n a).getD m d = l.getD m d := by
  rcases Nat.lt_or_ge m l.length with hm | hm
  · rw [List.getD_eq_getElem _ _ (by simpa using hm),
      List.getD_eq_getElem _ _ hm]
    exact List.getElem_set_ne h _
  · rw [List.getD_eq_getElem?_getD, List.getElem?_eq_none (by simpa using hm),
      List.getD_eq_getElem?_getD, List.getElem?_eq_none (by simpa using hm)]

theorem getD_replicate' {n : Nat} {a : α} (i : Nat) (d : α) :
    (List.replicate n a).getD i d = if i < n then a else d := by
  rcases Nat.lt_or_ge i n with h | h
  · rw [if_pos h, List.getD_eq_getElem _ _ (by simpa using h),
      List.getElem_replicate]
  · rw [if_neg (by omega), List.getD_eq_getElem?_getD,
      List.getElem?_eq_none (by simpa using h)]
    rfl

theorem flatten_replicate_replicate (B k : Nat) (a : α) :
    (List.replicate B (List.replicate k a)).flatten = List.replicate (B * k) a := by
  rw [List.eq_replicate_iff]
  constructor
  · rw [length_flatten_uniform (k := k)
      (by intro r hr; rw [List.eq_of_mem_replicate hr]; simp)]
    simp
  · intro b hb
    rcases List.mem_flatten.mp hb with ⟨l, hl, hbl⟩
    rw [List.eq_of_mem_replicate hl] at hbl
    exact List.eq_of_mem_replicate hbl

theorem headD_mem_of_ne_nil {l : List Nat} (h : l ≠ []) (d : Nat) :
    l.headD d ∈ l := by
  cases l with
  | nil => exact absurd rfl h
  | cons a t => exact List.mem_cons_self a t

theorem bestSlot_lt (p : SP) (nll : List (List ℚ)) (beam : List (List (List Nat)))
    (s : Nat) (hk : 0 < p.k) : bestSlot p nll beam s < p.k := by
  unfold bestSlot
  have hlen : (topIdxs 1 ((List.range p.k).map (normScore p nll beam s))).length
      = 1 := by
    rw [length_topIdxs]
    simp
    omega
  have hne : topIdxs 1 ((List.range p.k).map (normScore p nll beam s)) ≠ [] := by
    intro hcon
    rw [hcon] at hlen
    simp at hlen
  have hmem := headD_mem_of_ne_nil hne 0
  have h2 := (mem_topIdxs.mp hmem).1
  simpa using h2

theorem takeWhile_congr_of_stop {q : α → Bool} :
    ∀ (n : Nat) (l₁ l₂ : List α), l₁.take n = l₂.take n →
      (∃ i x, i < n ∧ l₁[i]? = some x ∧ q x = false) →
      l₁.takeWhile q = l₂.takeWhile q := by
  intro n
  induction n with
  | zero =>
    intro l₁ l₂ _ hstop
    rcases hstop with ⟨i, x, hi, _, _⟩
    omega
  | succ n ih =>
    intro l₁ l₂ hpre hstop
    cases l₁ with
    | nil =>
      cases l₂ with
      | nil => rfl
      | cons b t₂ => simp at hpre
    | cons a t₁ =>
      cases l₂ with
      | nil => simp at hpre
      | cons b t₂ =>
        simp only [List.take_succ_cons, List.cons.injEq] at hpre
        obtain ⟨rfl, hpre'⟩ := hpre
        by_cases hq : q a
        · rw [List.takeWhile_cons_of_pos hq, List.takeWhile_cons_of_pos hq]
          congr 1
          apply ih t₁ t₂ hpre'
          rcases hstop with ⟨i, x, hi, hget, hx⟩
          cases i with
          | zero =>
            simp only [List.getElem?_cons_zero, Option.some.injEq] at hget
            rw [← hget] at hx
            rw [hq] at hx
            exact absurd hx (by simp)
          | succ i =>
            exact ⟨i, x, by omega, by simpa using hget, hx⟩
        · rw [List.takeWhile_cons_of_neg hq, List.takeWhile_cons_of_neg hq]

theorem filter_range_eq_single (n c : Nat) :
    (List.range n).filter (fun v => decide (v = c)) = if c < n then [c] else [] := by
  induction n with
  | zero => simp
  | succ n ih =>
    rw [List.range_succ, List.filter_append, ih]
    by_cases h : c < n
    · rw [if_pos h, if_pos (by omega)]
      have h1 : List.filter (fun v => decide (v = c)) [n] = [] := by
        simp
        omega
      rw [h1, List.append_nil]
    · by_cases h2 : c = n
      · subst h2
        rw [if_neg h, if_pos (by omega)]
        simp
      · rw [if_neg h, if_neg (by omega)]
        have h1 : List.filter (fun v => decide (v = c)) [n] = [] := by
          simp
          omega
        rw [h1, List.append_nil]

theorem filter_range_mod_eq_two (k V : Nat) (hV : 2 < V) :
    (List.range (k * V)).filter (fun f => decide (f % V = 2))
      = (List.range k).map (fun j => j * V + 2) := by
  induction k with
  | zero => simp
  | succ k ih =>
    have hkv : (k + 1) * V = k * V + V := by ring
    rw [hkv, List.range_add, List.filter_append, ih, List.filter_map,
      List.range_succ, List.map_append]
    congr 1
    have hpred : ∀ v ∈ List.range V,
        ((fun f => decide (f % V = 2)) ∘ (fun x => k * V + x)) v
          = (fun v => decide (v = 2)) v := by
      intro v hv
      rw [List.mem_range] at hv
      have hmod : (k * V + v) % V = v := by
        rw [Nat.mul_comm, Nat.mul_add_mod, Nat.mod_eq_of_lt hv]
      simp [Function.comp, hmod]
    rw [List.filter_congr hpred, filter_range_eq_single, if_pos hV]
    simp [Nat.add_comm]

/-- When every current token of the batch is the end id and the sentinel
dominates the score spread of sample s, the per-sample top-k of a decode
step selects exactly the end-token continuation of every beam slot, in slot
order. -/
theorem stepSel_all_eos (p : SP) (B t : Nat) (logp : List (List ℚ)) (st : St)
    (s : Nat) (ht : t ≠ 0) (hV : 3 ≤ p.V) (hk : 0 < p.k) (hs : s < B)
    (hlplen : logp.length = B * p.k)
    (hlprow : ∀ rr ∈ logp, rr.length = p.V)
    (hfinAll : ∀ x ∈ st.idxs, x = 2)
    (hidlen : st.idxs.length = B * p.k)
    (hspread : ∀ j j', j < p.k → j' < p.k →
      (st.nll.getD s []).getD j 0 - 1000 < (st.nll.getD s []).getD j' 0) :
    stepSel p t logp st s = (List.range p.k).map (fun j => j * p.V + 2) := by
  have hV0 : 0 < p.V := by omega
  have hw : curW p t = p.k := by
    unfold curW
    rw [if_neg ht]
  have hidx : ∀ j', j' < p.k → s * p.k + j' < logp.length := by
    intro j' hj'
    have h1 : (s + 1) * p.k ≤ B * p.k := Nat.mul_le_mul_right _ (by omega)
    have h2 : s * p.k + p.k = (s + 1) * p.k := by ring
    omega
  have hProws : ∀ j', j' < p.k →
      (stepP p logp st).getD (s * p.k + j') [] = pinnedRow p.V := by
    intro j' hj'
    have hfin : st.idxs.getD (s * p.k + j') 0 = 2 := by
      apply hfinAll
      rw [List.getD_eq_getElem _ _ (by rw [hidlen, ← hlplen]; exact hidx j' hj')]
      exact List.getElem_mem _
    rw [stepP_getD_finished (hidx j' hj') hfin,
      getD_length_of_forall hlprow (hidx j' hj')]
  have hxlen : (candRow p.V (curW p t) st.nll (stepP p logp st) s).length
      = p.k * p.V := by
    unfold candRow
    rw [hw]
    simp
  have hval : ∀ f, f < p.k * p.V →
      (candRow p.V (curW p t) st.nll (stepP p logp st) s).getD f 0
        = (st.nll.getD s []).getD (f / p.V) 0
          + (if f % p.V = 2 then 0 else negInf) := by
    intro f hf
    rw [candRow_getD (by rw [hw]; exact hf)]
    unfold candVal
    rw [hw, hProws (f / p.V) ((Nat.div_lt_iff_lt_mul hV0).mpr hf),
      pinnedRow_getD (Nat.mod_lt _ hV0) (by omega)]
  have hvaleos : ∀ f, f < p.k * p.V → f % p.V = 2 →
      (candRow p.V (curW p t) st.nll (stepP p logp st) s).getD f 0
        = (st.nll.getD s []).getD (f / p.V) 0 := by
    intro f hf h2
    rw [hval f hf, if_pos h2, add_zero]
  have hvalne : ∀ f, f < p.k * p.V → f % p.V ≠ 2 →
      (candRow p.V (curW p t) st.nll (stepP p logp st) s).getD f 0
        = (st.nll.getD s []).getD (f / p.V) 0 - 1000 := by
    intro f hf h2
    rw [hval f hf, if_neg h2]
    unfold negInf
    ring
  have hrank : ∀ f, f < p.k * p.V →
      (rank (candRow p.V (curW p t) st.nll (stepP p logp st) s) f < p.k
        ↔ f % p.V = 2) := by
    intro f hf
    constructor
    · intro hrk
      by_contra hne
      have hS : ((Finset.range p.k).image (fun c => c * p.V + 2))
          ⊆ (Finset.range
              (candRow p.V (curW p t) st.nll (stepP p logp st) s).length).filter
            (fun g => Beats (candRow p.V (curW p t) st.nll (stepP p logp st) s) g f) := by
        intro x hx
        rcases Finset.mem_image.mp hx with ⟨c, hc, rfl⟩
        rw [Finset.mem_range] at hc
        have hclt : c * p.V + 2 < p.k * p.V := by
          have h5 : c * p.V + p.V ≤ p.k * p.V := by
            have h6 : c * p.V + p.V = (c + 1) * p.V := by ring
            rw [h6]
            exact Nat.mul_le_mul_right _ (by omega)
          omega
        have hcmod : (c * p.V + 2) % p.V = 2 := by
          rw [Nat.mul_comm, Nat.mul_add_mod, Nat.mod_eq_of_lt (by omega)]
        have hcdiv : (c * p.V + 2) / p.V = c := by
          rw [Nat.mul_comm, Nat.mul_add_div hV0, Nat.div_eq_of_lt (by omega),
            Nat.add_zero]
        refine Finset.mem_filter.mpr ⟨Finset.mem_range.mpr (by rw [hxlen]; exact hclt), ?_⟩
        apply Or.inl
        rw [hvalne f hf hne, hvaleos _ hclt hcmod, hcdiv]
        exact hspread (f / p.V) c ((Nat.div_lt_iff_lt_mul hV0).mpr hf) hc
      have hcard : ((Finset.range p.k).image (fun c => c * p.V + 2)).card = p.k := by
        rw [Finset.card_image_of_injOn, Finset.card_range]
        intro a ha b hb hab
        have hab' : a * p.V + 2 = b * p.V + 2 := hab
        simp only [Finset.coe_range, Set.mem_Iio] at ha hb
        have h7 : (a * p.V + 2) / p.V = a := by
          rw [Nat.mul_comm, Nat.mul_add_div hV0, Nat.div_eq_of_lt (by omega),
            Nat.add_zero]
        have h8 : (b * p.V + 2) / p.V = b := by
          rw [Nat.mul_comm, Nat.mul_add_div hV0, Nat.div_eq_of_lt (by omega),
            Nat.add_zero]
        rw [hab'] at h7
        omega
      have h9 := Finset.card_le_card hS
      rw [hcard] at h9
      unfold rank at hrk
      omega
    · intro h2
      have hfS : f ∈ (Finset.range p.k).image (fun c => c * p.V + 2) := by
        apply Finset.mem_image.mpr
        refine ⟨f / p.V, Finset.mem_range.mpr ((Nat.div_lt_iff_lt_mul hV0).mpr hf), ?_⟩
        conv_rhs => rw [← Nat.div_add_mod f p.V]
        rw [h2, Nat.mul_comm]
      have hsub : (Finset.range
            (candRow p.V (curW p t) st.nll (stepP p logp st) s).length).filter
          (fun g => Beats (candRow p.V (curW p t) st.nll (stepP p logp st) s) g f)
          ⊆ ((Finset.range p.k).image (fun c => c * p.V + 2)).erase f := by
        intro g hg
        have hg' := Finset.mem_filter.mp hg
        have hglt : g < p.k * p.V := by
          have := Finset.mem_range.mp hg'.1
          rwa [hxlen] at this
        have hgmod : g % p.V = 2 := by
          by_contra hgne
          have hvg := hvalne g hglt hgne
          have hvf := hvaleos f hf h2
          have hlt : (candRow p.V (curW p t) st.nll (stepP p logp st) s).getD g 0
              < (candRow p.V (curW p t) st.nll (stepP p logp st) s).getD f 0 := by
            rw [hvg, hvf]
            exact hspread (g / p.V) (f / p.V)
              ((Nat.div_lt_iff_lt_mul hV0).mpr hglt)
              ((Nat.div_lt_iff_lt_mul hV0).mpr hf)
          rcases hg'.2 with hb | ⟨hb, _⟩
          · exact absurd hb (by exact lt_asymm hlt)
          · rw [hb] at hlt
            exact absurd hlt (lt_irrefl _)
        rw [Finset.mem_erase]
        constructor
        · intro hgf
          rw [hgf] at hg'
          exact beats_irrefl _ f hg'.2
        · apply Finset.mem_image.mpr
          refine ⟨g / p.V, Finset.mem_range.mpr ((Nat.div_lt_iff_lt_mul hV0).mpr hglt), ?_⟩
          conv_rhs => rw [← Nat.div_add_mod g p.V]
          rw [hgmod, Nat.mul_comm]
      have hcard : ((Finset.range p.k).image (fun c => c * p.V + 2)).card = p.k := by
        rw [Finset.card_image_of_injOn, Finset.card_range]
        intro a ha b hb hab
        have hab' : a * p.V + 2 = b * p.V + 2 := hab
        simp only [Finset.coe_range, Set.mem_Iio] at ha hb
        have h7 : (a * p.V + 2) / p.V = a := by
          rw [Nat.mul_comm, Nat.mul_add_div hV0, Nat.div_eq_of_lt (by omega),
            Nat.add_zero]
        have h8 : (b * p.V + 2) / p.V = b := by
          rw [Nat.mul_comm, Nat.mul_add_div hV0, Nat.div_eq_of_lt (by omega),
            Nat.add_zero]
        rw [hab'] at h7
        omega
      have h10 := Finset.card_le_card hsub
      rw [Finset.card_erase_of_mem hfS, hcard] at h10
      unfold rank
      omega
  show topIdxs p.k (candRow p.V (curW p t) st.nll (stepP p logp st) s) = _
  unfold topIdxs
  rw [hxlen]
  have hcongr : ∀ f ∈ List.range (p.k * p.V),
      (decide (rank (candRow p.V (curW p t) st.nll (stepP p logp st) s) f < p.k))
        = (decide (f % p.V = 2)) := by
    intro f hf
    rw [List.mem_range] at hf
    simp only [decide_eq_decide]
    exact hrank f hf
  rw [List.filter_congr hcongr, filter_range_mod_eq_two _ _ (by omega)]

/-- When every current token of the batch is the end id and the sentinel
dominates every per-sample score spread, one decode step leaves the running
scores and the current tokens unchanged and only writes another all-end row
into the beam at position t (the gather of earlier rows is the identity). -/
theorem stepOnce_all_eos (p : SP) (B t : Nat) (logp : List (List ℚ)) (st : St)
    (ht : t ≠ 0) (htL : t < p.L) (hV : 3 ≤ p.V) (hk : 0 < p.k)
    (hlplen : logp.length = B * p.k)
    (hlprow : ∀ rr ∈ logp, rr.length = p.V)
    (hfinAll : ∀ x ∈ st.idxs, x = 2)
    (hidlen : st.idxs.length = B * p.k)
    (hnlen : st.nll.length = B)
    (hnrow : ∀ rr ∈ st.nll, rr.length = p.k)
    (hbl : st.beam.length = p.L)
    (hrowB : ∀ r, r < p.L → (st.beam.getD r []).length = B)
    (hcolk : ∀ r s', r < p.L → s' < B → ((st.beam.getD r []).getD s' []).length = p.k)
    (hspreadAll : ∀ s j j', s < B → j < p.k → j' < p.k →
      (st.nll.getD s []).getD j 0 - 1000 < (st.nll.getD s []).getD j' 0) :
    (stepOnce p B t logp st).nll = st.nll ∧
    (stepOnce p B t logp st).idxs = st.idxs ∧
    (stepOnce p B t logp st).beam
      = st.beam.set t (List.replicate B (List.replicate p.k 2)) := by
  have hV0 : 0 < p.V := by omega
  have hw : curW p t = p.k := by
    unfold curW
    rw [if_neg ht]
  have hsel : ∀ s, s < B →
      stepSel p t logp st s = (List.range p.k).map (fun j => j * p.V + 2) :=
    fun s hs => stepSel_all_eos p B t logp st s ht hV hk hs hlplen hlprow
      hfinAll hidlen (fun j j' hj hj' => hspreadAll s j j' hs hj hj')
  have hmod : ∀ j, j < p.k → (j * p.V + 2) % p.V = 2 := by
    intro j hj
    rw [Nat.mul_comm, Nat.mul_add_mod, Nat.mod_eq_of_lt (by omega)]
  have hdiv : ∀ j, j < p.k → (j * p.V + 2) / p.V = j := by
    intro j hj
    rw [Nat.mul_comm, Nat.mul_add_div hV0, Nat.div_eq_of_lt (by omega),
      Nat.add_zero]
  have hidx : ∀ s j', s < B → j' < p.k → s * p.k + j' < logp.length := by
    intro s j' hs hj'
    have h1 : (s + 1) * p.k ≤ B * p.k := Nat.mul_le_mul_right _ (by omega)
    have h2 : s * p.k + p.k = (s + 1) * p.k := by ring
    omega
  have hProws : ∀ s j', s < B → j' < p.k →
      (stepP p logp st).getD (s * p.k + j') [] = pinnedRow p.V := by
    intro s j' hs hj'
    have hfin : st.idxs.getD (s * p.k + j') 0 = 2 := by
      apply hfinAll
      rw [List.getD_eq_getElem _ _ (by rw [hidlen, ← hlplen]; exact hidx s j' hs hj')]
      exact List.getElem_mem _
    rw [stepP_getD_finished (hidx s j' hs hj') hfin,
      getD_length_of_forall hlprow (hidx s j' hs hj')]
  have htoksrow : ∀ s, s < B →
      (stepSel p t logp st s).map (fun f => f % p.V) = List.replicate p.k 2 := by
    intro s hs
    rw [hsel s hs, List.map_map]
    rw [List.map_congr_left (g := fun _ => 2) (fun j hj => by
      rw [List.mem_range] at hj
      show (j * p.V + 2) % p.V = 2
      exact hmod j hj)]
    rw [List.map_const', List.length_range]
  have hpdxsrow : ∀ s, s < B →
      (stepSel p t logp st s).map (fun f => f / p.V) = List.range p.k := by
    intro s hs
    rw [hsel s hs, List.map_map]
    rw [List.map_congr_left (g := fun j => j) (fun j hj => by
      rw [List.mem_range] at hj
      show (j * p.V + 2) / p.V = j
      exact hdiv j hj)]
    exact List.map_id _
  have hnllrow : ∀ s, s < B →
      (stepSel p t logp st s).map
        (candVal p.V (curW p t) s st.nll (stepP p logp st)) = st.nll.getD s [] := by
    intro s hs
    rw [hsel s hs, List.map_map]
    rw [List.map_congr_left (g := fun j => (st.nll.getD s []).getD j 0)
      (fun j hj => by
        rw [List.mem_range] at hj
        show candVal p.V (curW p t) s st.nll (stepP p logp st) (j * p.V + 2) = _
        unfold candVal
        rw [hdiv j hj, hmod j hj, hw, hProws s j hs hj,
          pinnedRow_getD (by omega) (by omega), if_pos rfl, add_zero])]
    apply range_map_getD
    apply getD_length_of_forall (V := p.k) (fun rr hrr => hnrow rr hrr)
    omega
  have htoks : stepToks p B t logp st = List.replicate B (List.replicate p.k 2) := by
    unfold stepToks
    have h1 : ∀ s ∈ List.range B,
        (stepSel p t logp st s).map (fun f => f % p.V)
          = (fun _ : Nat => List.replicate p.k 2) s := by
      intro s hs
      rw [List.mem_range] at hs
      exact htoksrow s hs
    rw [List.map_congr_left h1, List.map_const', List.length_range]
  refine ⟨?_, ?_, ?_⟩
  · show stepNll p B t logp st = st.nll
    unfold stepNll
    have h1 : ∀ s ∈ List.range B,
        (stepSel p t logp st s).map
            (candVal p.V (curW p t) s st.nll (stepP p logp st))
          = (fun s => st.nll.getD s []) s := by
      intro s hs
      rw [List.mem_range] at hs
      exact hnllrow s hs
    rw [List.map_congr_left h1]
    exact range_map_getD hnlen
  · show (stepToks p B t logp st).flatten = st.idxs
    rw [htoks, flatten_replicate_replicate]
    exact (List.eq_replicate_iff.mpr ⟨hidlen, hfinAll⟩).symm
  · show stepBeam p B t logp st = _
    apply List.ext_getElem
    · unfold stepBeam
      rw [List.length_map, List.length_range, List.length_set, hbl]
    · intro r h1 h2
      have hrL : r < p.L := by
        unfold stepBeam at h1
        simpa using h1
      have hlhs : (stepBeam p B t logp st)[r]
          = (let row := st.beam.getD r []
             if r < t then
               (List.range B).map (fun s =>
                 ((stepPdxs p B t logp st).getD s []).map
                   (fun a => (row.getD s []).getD a 0))
             else if r = t then stepToks p B t logp st else row) := by
        unfold stepBeam
        rw [List.getElem_map, List.getElem_range]
      rw [hlhs]
      show (if r < t then
          (List.range B).map (fun s =>
            ((stepPdxs p B t logp st).getD s []).map
              (fun a => ((st.beam.getD r []).getD s []).getD a 0))
        else if r = t then stepToks p B t logp st else st.beam.getD r [])
        = (st.beam.set t (List.replicate B (List.replicate p.k 2)))[r]
      rcases Nat.lt_trichotomy r t with hrt | hrt | hrt
      · rw [if_pos hrt, List.getElem_set_ne (by omega) _]
        have hgather : (List.range B).map (fun s =>
            ((stepPdxs p B t logp st).getD s []).map
              (fun a => ((st.beam.getD r []).getD s []).getD a 0))
            = st.beam.getD r [] := by
          rw [List.map_congr_left
            (g := fun s => (st.beam.getD r []).getD s []) (fun s hs => by
              rw [List.mem_range] at hs
              rw [stepPdxs_getD hs, hpdxsrow s hs]
              exact range_map_getD (hcolk r s hrL hs))]
          exact range_map_getD (hrowB r hrL)
        rw [hgather, List.getD_eq_getElem _ _ (by omega)]
      · subst hrt
        rw [if_neg (lt_irrefl r), if_pos rfl, htoks]
        exact (List.getElem_set_self (by omega)).symm
      · rw [if_neg (by omega), if_neg (by omega),
          List.getElem_set_ne (by omega) _, List.getD_eq_getElem _ _ (by omega)]

theorem getD_getD_replicate_le {B k c : Nat} (s j : Nat) (hc : c ≤ 2) :
    ((List.replicate B (List.replicate k c)).getD s []).getD j 0 ≤ 2 := by
  rw [getD_replicate']
  by_cases hs : s < B
  · rw [if_pos hs, getD_replicate']
    by_cases hj : j < k
    · rw [if_pos hj]
      exact hc
    · rw [if_neg hj]
      omega
  · rw [if_neg hs]
    simp

theorem EosInv_step (p : SP) (B t : Nat) (logp : List (List ℚ)) (st : St)
    (hInv : EosInv p B t st) (htL : t < p.L)
    (hlplen : logp.length = B * p.k) (hlprow : ∀ rr ∈ logp, rr.length = p.V)
    (hV : 3 ≤ p.V) (hk : 0 < p.k) :
    EosInv p B (t + 1) (stepOnce p B t logp st) := by
  obtain ⟨h1, h2, h3, h4, h5, h6, h7, h8, h9, h10, h11, h12⟩ := hInv
  have ht : t ≠ 0 := by omega
  obtain ⟨hnll, hidxs, hbeam⟩ := stepOnce_all_eos p B t logp st ht htL hV hk
    hlplen hlprow h9 h10 h6 h7 h3 h4 h5 h12
  refine ⟨by omega, by omega, ?_, ?_, ?_, ?_, ?_, ?_, ?_, ?_, ?_, ?_⟩
  · rw [hbeam, List.length_set]
    exact h3
  · intro r hr
    rw [hbeam]
    by_cases hrt : r = t
    · subst hrt
      rw [getD_set_self (by omega) _ _]
      simp
    · rw [getD_set_ne' (fun hc => hrt hc.symm) _ _]
      exact h4 r hr
  · intro r s hr hs
    rw [hbeam]
    by_cases hrt : r = t
    · subst hrt
      rw [getD_set_self (by omega) _ _, getD_replicate', if_pos hs]
      simp
    · rw [getD_set_ne' (fun hc => hrt hc.symm) _ _]
      exact h5 r s hr hs
  · rw [hnll]
    exact h6
  · rw [hnll]
    exact h7
  · rw [hidxs, hbeam]
    show st.idxs = ((st.beam.set t _).getD (t + 1 - 1) []).flatten
    have he : t + 1 - 1 = t := by omega
    rw [he, getD_set_self (by omega) _ _, flatten_replicate_replicate]
    exact List.eq_replicate_iff.mpr ⟨h10, h9⟩
  · rw [hidxs]
    exact h9
  · rw [hidxs]
    exact h10
  · intro r hr1 hr2
    rw [hbeam, getD_set_ne' (by omega) _ _]
    exact h11 r (by omega) hr2
  · rw [hnll]
    exact h12

theorem finishBatch_stepOnce_eq (p : SP) (B t : Nat) (logp : List (List ℚ))
    (st : St) (hInv : EosInv p B t st) (htL : t < p.L)
    (hlplen : logp.length = B * p.k) (hlprow : ∀ rr ∈ logp, rr.length = p.V)
    (hV : 3 ≤ p.V) (hk : 0 < p.k) :
    finishBatch p B (stepOnce p B t logp st) = finishBatch p B st := by
  obtain ⟨h1, h2, h3, h4, h5, h6, h7, h8, h9, h10, h11, h12⟩ := hInv
  have ht : t ≠ 0 := by omega
  obtain ⟨hnll, hidxs, hbeam⟩ := stepOnce_all_eos p B t logp st ht htL hV hk
    hlplen hlprow h9 h10 h6 h7 h3 h4 h5 h12
  unfold finishBatch
  rw [hnll, hbeam]
  by_cases hLt : t = p.L - 1
  · have hsame : withEosRow p B
        (st.beam.set t (List.replicate B (List.replicate p.k 2)))
        = withEosRow p B st.beam := by
      unfold withEosRow
      rw [← hLt, List.set_set]
    rw [hsame]
  · have hcomm : withEosRow p B
        (st.beam.set t (List.replicate B (List.replicate p.k 2)))
        = (withEosRow p B st.beam).set t
            (List.replicate B (List.replicate p.k 2)) := by
      unfold withEosRow
      exact List.set_comm _ _ _ (by omega)
    rw [hcomm]
    have hFlen : (withEosRow p B st.beam).length = p.L := by
      unfold withEosRow
      rw [List.length_set]
      exact h3
    have hFt : (withEosRow p B st.beam).getD t [] =
        List.replicate B (List.replicate p.k 0) := by
      unfold withEosRow
      rw [getD_set_ne' (by omega) _ _]
      exact h11 t (le_refl t) htL
    have hcl : ∀ s j, contentLen p
        ((withEosRow p B st.beam).set t (List.replicate B (List.replicate p.k 2))) s j
        = contentLen p (withEosRow p B st.beam) s j := by
      intro s j
      unfold contentLen
      congr 3
      apply List.filter_congr
      intro r hr
      rw [List.mem_range] at hr
      by_cases hrt : r = t
      · subst hrt
        rw [getD_set_self (by omega) _ _, hFt]
        have e1 := getD_getD_replicate_le (B := B) (k := p.k) (c := 2) s j (by omega)
        have e2 := getD_getD_replicate_le (B := B) (k := p.k) (c := 0) s j (by omega)
        rw [decide_eq_false (by omega), decide_eq_false (by omega)]
      · rw [getD_set_ne' (fun hc => hrt hc.symm) _ _]
    have hlp : ∀ s j, lpVal p
        ((withEosRow p B st.beam).set t (List.replicate B (List.replicate p.k 2))) s j
        = lpVal p (withEosRow p B st.beam) s j := by
      intro s j
      unfold lpVal
      rw [hcl]
    have hns : ∀ s j, normScore p st.nll
        ((withEosRow p B st.beam).set t (List.replicate B (List.replicate p.k 2))) s j
        = normScore p st.nll (withEosRow p B st.beam) s j := by
      intro s j
      unfold normScore
      rw [hlp]
    have hbs : ∀ s, bestSlot p st.nll
        ((withEosRow p B st.beam).set t (List.replicate B (List.replicate p.k 2))) s
        = bestSlot p st.nll (withEosRow p B st.beam) s := by
      intro s
      unfold bestSlot
      have hcg : ∀ j ∈ List.range p.k,
          normScore p st.nll ((withEosRow p B st.beam).set t
            (List.replicate B (List.replicate p.k 2))) s j
          = normScore p st.nll (withEosRow p B st.beam) s j := fun j _ => hns s j
      rw [List.map_congr_left hcg]
    apply List.map_congr_left
    intro s hs
    rw [List.mem_range] at hs
    rw [hbs s]
    set jb := bestSlot p st.nll (withEosRow p B st.beam) s with hjb
    have hjbk : jb < p.k := bestSlot_lt p st.nll (withEosRow p B st.beam) s hk
    unfold sentOf
    apply takeWhile_congr_of_stop t
    · unfold hypAt
      rw [← List.map_take, ← List.map_take, List.take_range]
      apply List.map_congr_left
      intro r hr
      rw [List.mem_range, lt_min_iff] at hr
      show ((((withEosRow p B st.beam).set t
          (List.replicate B (List.replicate p.k 2))).getD r []).getD s []).getD jb 0
        = (((withEosRow p B st.beam).getD r []).getD s []).getD jb 0
      rw [getD_set_ne' (by omega) _ _]
    · refine ⟨t - 1, 2, by omega, ?_, by simp [eosId]⟩
      unfold hypAt
      rw [List.getElem?_map]
      have hrg : (List.range p.L)[t - 1]? = some (t - 1) :=
        List.getElem?_range (by omega)
      rw [hrg]
      show some (((((withEosRow p B st.beam).set t
          (List.replicate B (List.replicate p.k 2))).getD (t - 1) []).getD s []).getD jb 0)
        = some 2
      congr 1
      rw [getD_set_ne' (by omega) _ _]
      have hFt1 : (withEosRow p B st.beam).getD (t - 1) []
          = st.beam.getD (t - 1) [] := by
        unfold withEosRow
        rw [getD_set_ne' (by omega) _ _]
      rw [hFt1]
      have hcols : ∀ col ∈ st.beam.getD (t - 1) [], col.length = p.k := by
        intro col hcol
        rcases List.mem_iff_getElem.mp hcol with ⟨s', hs', rfl⟩
        have hs'B : s' < B := by
          have := h4 (t - 1) (by omega)
          omega
        rw [← List.getD_eq_getElem _ [] hs']
        exact h5 (t - 1) s' (by omega) hs'B
      have hibound : s * p.k + jb < (st.beam.getD (t - 1) []).length * p.k := by
        rw [h4 (t - 1) (by omega)]
        have hsk : (s + 1) * p.k ≤ B * p.k := Nat.mul_le_mul_right _ (by omega)
        have hsk2 : s * p.k + p.k = (s + 1) * p.k := by ring
        omega
      have hflat := flatten_getD_uniform hk hcols hibound (0 : Nat)
      have hdivs : (s * p.k + jb) / p.k = s := by
        rw [Nat.mul_comm, Nat.mul_add_div hk, Nat.div_eq_of_lt hjbk, Nat.add_zero]
      have hmods : (s * p.k + jb) % p.k = jb := by
        rw [Nat.mul_comm, Nat.mul_add_mod, Nat.mod_eq_of_lt hjbk]
      rw [hdivs, hmods] at hflat
      rw [← hflat, ← h8]
      apply h9
      have hbound : s * p.k + jb < st.idxs.length := by
        rw [h10]
        have hsk : (s + 1) * p.k ≤ B * p.k := Nat.mul_le_mul_right _ (by omega)
        have hsk2 : s * p.k + p.k = (s + 1) * p.k := by ring
        omega
      rw [List.getD_eq_getElem _ _ hbound]
      exact List.getElem_mem _

theorem runSteps_unfold_step (p : SP) (oracle : Nat → List Nat → List (List ℚ))
    (B : Nat) (ub : Bool) (t fuel : Nat) (st : St) :
    runSteps p oracle B ub t (fuel + 1) st
      = if ub ∧ 0 < st.idxs.count 2 ∧ st.idxs.count 2 = B * p.k then st
        else runSteps p oracle B ub (t + 1) fuel
          (stepOnce p B t (oracle t st.idxs) st) := rfl

theorem runSteps_noBreak_finish (p : SP) (oracle : Nat → List Nat → List (List ℚ))
    (B : Nat) (hV : 3 ≤ p.V) (hk : 0 < p.k)
    (horacle : ∀ u tok, (oracle u tok).length = B * p.k ∧
      ∀ rr ∈ oracle u tok, rr.length = p.V) :
    ∀ fuel t st, EosInv p B t st → t + fuel ≤ p.L →
      finishBatch p B (runSteps p oracle B false t fuel st) = finishBatch p B st := by
  intro fuel
  induction fuel with
  | zero =>
    intro t st _ _
    rfl
  | succ fuel ih =>
    intro t st hInv hle
    have htL : t < p.L := by omega
    rw [runSteps_unfold_step, if_neg (by simp)]
    rw [ih (t + 1) _ (EosInv_step p B t _ st hInv htL (horacle t st.idxs).1
      (horacle t st.idxs).2 hV hk) (by omega)]
    exact finishBatch_stepOnce_eq p B t _ st hInv htL (horacle t st.idxs).1
      (horacle t st.idxs).2 hV hk

/-- C5: if at some step every active beam slot of the batch has already
emitted the end token (and the sentinel dominates the score spread, as the
spec's numeric-semantics section stipulates), the step loop with the early
exit stops right there, and the decoded per-batch results of continuing
without the early exit for all remaining steps up to max_len are identical
to the results extracted at the break point. -/
theorem c5_early_termination (p : SP) (oracle : Nat → List Nat → List (List ℚ))
    (B t : Nat) (st : St) (hB : 0 < B) (hV : 3 ≤ p.V) (hk : 0 < p.k)
    (horacle : ∀ u tok, (oracle u tok).length = B * p.k ∧
      ∀ rr ∈ oracle u tok, rr.length = p.V)
    (hInv : EosInv p B t st) :
    runSteps p oracle B true t (p.L - t) st = st ∧
    finishBatch p B (runSteps p oracle B false t (p.L - t) st)
      = finishBatch p B st := by
  have hInv' := hInv
  obtain ⟨h1, h2, _h3, _h4, _h5, _h6, _h7, _h8, h9, h10, _h11, _h12⟩ := hInv'
  constructor
  · rcases hfu : p.L - t with _ | fuel
    · rfl
    · rw [runSteps_unfold_step, if_pos]
      have hrep : st.idxs = List.replicate (B * p.k) 2 :=
        List.eq_replicate_iff.mpr ⟨h10, h9⟩
      have hc : st.idxs.count 2 = B * p.k := by
        rw [hrep, List.count_replicate]
        simp
      refine ⟨rfl, ?_, hc⟩
      rw [hc]
      exact Nat.mul_pos hB hk
  · exact runSteps_noBreak_finish p oracle B hV hk horacle (p.L - t) t st hInv
      (by omega)

/-- C5 witness: a one-sample, one-beam batch that finished at step 0 of 2;
the loop with the early exit stops at step 1 and the full run decodes the
same results. -/
theorem c5_early_termination_witness :
    EosInv ⟨1, 3, 2, 1, 0, false⟩ 1 1 ⟨[[[2]], [[0]]], [[0]], [2], [0]⟩ ∧
    runSteps ⟨1, 3, 2, 1, 0, false⟩ (fun _ _ => [[-1, -1, -1]]) 1 true 1 1
      ⟨[[[2]], [[0]]], [[0]], [2], [0]⟩ = ⟨[[[2]], [[0]]], [[0]], [2], [0]⟩ ∧
    finishBatch ⟨1, 3, 2, 1, 0, false⟩ 1
      (runSteps ⟨1, 3, 2, 1, 0, false⟩ (fun _ _ => [[-1, -1, -1]]) 1 false 1 1
        ⟨[[[2]], [[0]]], [[0]], [2], [0]⟩)
      = finishBatch ⟨1, 3, 2, 1, 0, false⟩ 1 ⟨[[[2]], [[0]]], [[0]], [2], [0]⟩ := by
  have hInv : EosInv ⟨1, 3, 2, 1, 0, false⟩ 1 1 ⟨[[[2]], [[0]]], [[0]], [2], [0]⟩ := by
    refine ⟨by decide, by decide, rfl, ?_, ?_, rfl, ?_, rfl,
      by decide, rfl, ?_, ?_⟩
    · intro r hr
      have hr' : r < 2 := hr
      interval_cases r <;> rfl
    · intro r s hr hs
      have hr' : r < 2 := hr
      have hs' : s < 1 := hs
      interval_cases r <;> interval_cases s <;> rfl
    · intro rr hrr
      rw [List.mem_singleton.mp hrr]
      rfl
    · intro r hr1 hr2
      have hr1' : 1 ≤ r := hr1
      have hr2' : r < 2 := hr2
      have hre : r = 1 := by omega
      subst hre
      rfl
    · intro s j j' hs hj hj'
      have hs' : s < 1 := hs
      have hj1 : j < 1 := hj
      have hj2 : j' < 1 := hj'
      have hz : s = 0 ∧ j = 0 ∧ j' = 0 := by omega
      obtain ⟨rfl, rfl, rfl⟩ := hz
      show (0 : ℚ) - 1000 < 0
      norm_num
  have horacle : ∀ (u : Nat) (tok : List Nat),
      ((fun (_ : Nat) (_ : List Nat) => [[(-1 : ℚ), -1, -1]]) u tok).length = 1 * 1 ∧
      ∀ rr ∈ (fun (_ : Nat) (_ : List Nat) => [[(-1 : ℚ), -1, -1]]) u tok,
        rr.length = (3 : Nat) := by
    intro u tok
    refine ⟨rfl, ?_⟩
    intro rr hrr
    rw [List.mem_singleton.mp hrr]
    rfl
  have h := c5_early_termination ⟨1, 3, 2, 1, 0, false⟩
    (fun _ _ => [[(-1 : ℚ), -1, -1]]) 1 1 ⟨[[[2]], [[0]]], [[0]], [2], [0]⟩
    (by decide) (by decide) (by decide) horacle hInv
  exact ⟨hInv, h.1, h.2⟩

/-- C4 witness: a finished one-sample, one-beam slot at step 1; the pinned
row is the sentinel except entry 2, and the selected continuation keeps the
end token with score increased by exactly 0. -/
theorem c4_eos_pinning_witness :
    (([2] : List Nat).getD (0 * 1 + 0) 0 = 2 ∧ (1 : Nat) < 3) ∧
    ((stepP ⟨1, 3, 2, 1, 0, false⟩ [[-1, -1, -1]]
        ⟨[[[2]], [[0]]], [[0]], [2], [0]⟩).getD (0 * 1 + 0) []).getD 1 0
      = (if (1 : Nat) = 2 then 0 else negInf) ∧
    ((stepOnce ⟨1, 3, 2, 1, 0, false⟩ 1 1 [[-1, -1, -1]]
        ⟨[[[2]], [[0]]], [[0]], [2], [0]⟩).nll.getD 0 []).getD 0 0
      = (([[0]] : List (List ℚ)).getD 0 []).getD 0 0 := by
  have hspread : ∀ j j' : Nat, j < 1 → j' < 1 →
      (([[0]] : List (List ℚ)).getD 0 []).getD j 0 - 1000
        < (([[0]] : List (List ℚ)).getD 0 []).getD j' 0 := by
    intro j j' hj hj'
    have hz : j = 0 ∧ j' = 0 := by omega
    obtain ⟨rfl, rfl⟩ := hz
    show (0 : ℚ) - 1000 < 0
    norm_num
  have hrows : ∀ rr ∈ ([[-1, -1, -1]] : List (List ℚ)), rr.length = 3 := by
    intro rr hrr
    rw [List.mem_singleton.mp hrr]
    rfl
  have hanc : (stepSel ⟨1, 3, 2, 1, 0, false⟩ 1 [[-1, -1, -1]]
      ⟨[[[2]], [[0]]], [[0]], [2], [0]⟩ 0).getD 0 0 / 3 = 0 := by
    rw [stepSel_all_eos ⟨1, 3, 2, 1, 0, false⟩ 1 1 [[-1, -1, -1]]
      ⟨[[[2]], [[0]]], [[0]], [2], [0]⟩ 0 (by decide) (by decide) (by decide)
      (by decide) rfl hrows (by decide) rfl
      (fun j j' hj hj' => hspread j j' hj hj')]
    decide
  have hdom : ∀ j', j' < (1 : Nat) → ∃ v', v' < (3 : Nat) ∧
      (([[0]] : List (List ℚ)).getD 0 []).getD 0 0 - 1000
        < (([[0]] : List (List ℚ)).getD 0 []).getD j' 0
          + ((stepP ⟨1, 3, 2, 1, 0, false⟩ [[-1, -1, -1]]
              ⟨[[[2]], [[0]]], [[0]], [2], [0]⟩).getD (0 * 1 + j') []).getD v' 0 := by
    intro j' hj'
    have hj0 : j' = 0 := by omega
    subst hj0
    refine ⟨2, by decide, ?_⟩
    have hP : (stepP ⟨1, 3, 2, 1, 0, false⟩ [[-1, -1, -1]]
        ⟨[[[2]], [[0]]], [[0]], [2], [0]⟩).getD (0 * 1 + 0) [] = pinnedRow 3 := by
      rw [stepP_getD_finished (by decide) (by decide)]
      rfl
    rw [hP, pinnedRow_getD (by decide) (by decide), if_pos rfl]
    show (0 : ℚ) - 1000 < 0 + 0
    norm_num
  have h := c4_eos_pinning ⟨1, 3, 2, 1, 0, false⟩ 1 1 0 0 0 1 [[-1, -1, -1]]
    ⟨[[[2]], [[0]]], [[0]], [2], [0]⟩ (by decide) (by decide) (by decide)
    (by decide) (by decide) (by decide) rfl hrows (by decide)
    (by rw [stepSel_length]; decide) hanc hdom
  exact ⟨⟨by decide, by decide⟩, h.1, h.2.2⟩

end BeamSearch
